import Mathlib

/-!
# Consensus callbacks and event-hash sets

A shallow embedding of `gossip/consensus_callbacks.go` and
`src/posposet/event_hash.go`, followed by the properties proved about it.

Conventions of the embedding:

* Go slices are `List`s; loops over a slice are structural recursions that
  carry the loop variables of the source as arguments.
* Go maps with value lookups are total functions into `Option`.
* A path that ends in `log.Crit` (the process exits) returns `none`.
* Collaborators whose code is outside the two files (ordering engine,
  transaction executor, state database, hashing) are parameters.
-/

set_option autoImplicit false

namespace gossip

/-! ## Data model -/

/-- Byte strings (`[]byte`), one natural number per byte. -/
abbrev Bytes := List Nat

/-- Modelled from the spec: the digest types `common.Hash`, `hash.Hash` and
`hash.Event`, declared outside the two files. A digest is known by its bytes,
which `Bytes()` returns. -/
structure Hash where
  Bytes : Bytes
deriving DecidableEq, Repr

/-- The zero value of a digest: 32 zero bytes. -/
def Hash.zero : Hash := ⟨List.replicate 32 0⟩

/-- `idx.Epoch`, a `uint32`. -/
abbrev Epoch := Nat
/-- `idx.StakerID`, a `uint32`. -/
abbrev StakerID := Nat
/-- `idx.Frame`, a `uint32`. -/
abbrev Frame := Nat
/-- `idx.Block`, a `uint64`. -/
abbrev BlockIdx := Nat
/-- `idx.Event`, a `uint32`: a depth or sequence number of an event. -/
abbrev EventIdx := Nat
/-- Go `error` values, known by their message. -/
abbrev Error := String

/-- `eventcheck.ErrAlreadyConnectedEvent`. -/
def ErrAlreadyConnectedEvent : Error := "event is connected already"

/-- Modelled from the spec: `types.Transaction`, declared outside the two files.
`Hash` stands for `tx.Hash()`, the digest of the content. -/
structure Transaction where
  Hash : Hash
  Data : Bytes
deriving DecidableEq, Repr

/-- Modelled from the spec: `inter.EventHeaderData`, declared outside the two
files, with the fields the callbacks read. `Hash` stands for `Hash()`, the
content-derived identity, and `NoTransactions` for `NoTransactions()`. -/
structure EventHeaderData where
  Epoch : Epoch
  Creator : StakerID
  Parents : List Hash
  NoTransactions : Bool
  Hash : Hash
deriving DecidableEq, Repr

/-- Modelled from the spec: `inter.Event`, declared outside the two files: a
header and an ordered list of transactions. -/
structure Event extends EventHeaderData where
  Transactions : List Transaction
deriving DecidableEq, Repr

/-- Modelled from the spec: `inter.Block`, declared outside the two files, with
the fields the callbacks read and write. -/
structure Block where
  Index : BlockIdx
  Atropos : Hash
  Events : List Hash
  SkippedTxs : List Nat
  GasUsed : Nat
  TxHash : Hash
  Root : Hash
deriving DecidableEq, Repr

/-- Modelled from the spec: `evmcore.EvmHeader`, declared outside the two files:
the header view of a block. -/
structure EvmHeader where
  Number : BlockIdx
  Root : Hash
  TxHash : Hash
  GasUsed : Nat
  Hash : Hash
deriving DecidableEq, Repr

/-- Modelled from the spec: `evmcore.ToEvmHeader`, declared outside the two
files: the header view is rebuilt from the block. -/
def ToEvmHeader (block : Block) : EvmHeader :=
  { Hash := block.Atropos, Number := block.Index, Root := block.Root,
    TxHash := block.TxHash, GasUsed := block.GasUsed }

/-- Modelled from the spec: `evmcore.EvmBlock`, declared outside the two files. -/
structure EvmBlock where
  EvmHeader : EvmHeader
  Transactions : List Transaction
deriving DecidableEq, Repr

/-- Modelled from the spec: `types.Receipt`, declared outside the two files,
reduced to its logs. -/
structure Receipt where
  Logs : List Nat
deriving DecidableEq, Repr

/-- Modelled from the spec: `TxPosition`, declared in another file of the
package: provenance `(Event, EventOffset)` and final place
`(Block, BlockOffset)` of a transaction. The offsets are `uint32`. -/
structure TxPosition where
  Block : BlockIdx := 0
  Event : Hash := Hash.zero
  EventOffset : Nat := 0
  BlockOffset : Nat := 0
deriving DecidableEq, Repr

/-- The conversion `uint32(i)` of a non-negative `int`. -/
def toUint32 (i : Nat) : Nat := i % 2 ^ 32

/-- The map `map[common.Hash]TxPosition` of `applyNewState`. -/
abbrev TxPositions := Hash → Option TxPosition

/-! ## Skip filtering -/

/-- The `for i, tx := range evmBlock.Transactions` loop of `filterSkippedTxs`.
Arguments after the skip list: the transactions still to visit, the index `i`
of the first of them, `skipCount`, and `filteredTxs` built so far. -/
def filterLoop {α : Type} (skipped : List Nat) : List α → Nat → Nat → List α → List α
  | [], _, _, filteredTxs => filteredTxs
  | tx :: rest, i, skipCount, filteredTxs =>
    if skipCount < skipped.length && skipped.getD skipCount 0 == i then
      filterLoop skipped rest (i + 1) (skipCount + 1) filteredTxs
    else
      filterLoop skipped rest (i + 1) skipCount (filteredTxs ++ [tx])

/-- `filterSkippedTxs`: the transactions of `evmBlock` are replaced by the ones
the loop keeps; the header is left as it is. -/
def filterSkippedTxs (block : Block) (evmBlock : EvmBlock) : EvmBlock :=
  { evmBlock with
    Transactions := filterLoop block.SkippedTxs evmBlock.Transactions 0 0 [] }

/-- What the loop of `filterSkippedTxs` does, read off the part of the skip
list that is still ahead of `skipCount`. Used to reason about `filterLoop`. -/
def filterAhead {α : Type} : List Nat → Nat → List α → List α
  | _, _, [] => []
  | [], i, tx :: rest => tx :: filterAhead [] (i + 1) rest
  | k :: ahead, i, tx :: rest =>
    if k = i then filterAhead ahead (i + 1) rest
    else tx :: filterAhead (k :: ahead) (i + 1) rest

/-! ## Store, service and collaborators -/

/-- Modelled from the spec: the tables of `Store` (declared in another file of
the package) that the callbacks read and write: events keyed by identity, the
last event per (epoch, validator), the heads per epoch, the last confirmed
header per (epoch, validator), the epochs whose storage is materialized,
blocks by index, block index by Atropos, transaction positions by transaction
hash, receipts by block index. -/
structure Store where
  events : Hash → Option Event
  lastEvents : Epoch → StakerID → Option Hash
  heads : Epoch → Finset Hash
  lastHeaders : Epoch → StakerID → Option EventHeaderData
  epochStores : Finset Epoch
  blocks : BlockIdx → Option Block
  blockIndex : Hash → Option BlockIdx
  txPositions : Hash → Option TxPosition
  receipts : BlockIdx → Option (List Receipt)

/-- Modelled from the spec: `Store.HasEvent`, whether the identity is stored. -/
def Store.HasEvent (st : Store) (h : Hash) : Bool := (st.events h).isSome

/-- Modelled from the spec: `Store.GetEvent`, `nil` when the identity is absent. -/
def Store.GetEvent (st : Store) (h : Hash) : Option Event := st.events h

/-- Modelled from the spec: `Store.SetEvent`, persist the event keyed by
identity. -/
def Store.SetEvent (st : Store) (e : Event) : Store :=
  { st with events := Function.update st.events e.Hash (some e) }

/-- Modelled from the spec: `Store.DeleteEvent`, delete by epoch and identity. -/
def Store.DeleteEvent (st : Store) (_epoch : Epoch) (h : Hash) : Store :=
  { st with events := Function.update st.events h none }

/-- Modelled from the spec: `Store.SetLastEvent`, the last event per
(epoch, validator). -/
def Store.SetLastEvent (st : Store) (epoch : Epoch) (creator : StakerID) (h : Hash) : Store :=
  let last := Function.update (st.lastEvents epoch) creator (some h)
  { st with lastEvents := Function.update st.lastEvents epoch last }

/-- Modelled from the spec: `Store.DelHead`, remove an identity from the heads
of an epoch. -/
def Store.DelHead (st : Store) (epoch : Epoch) (h : Hash) : Store :=
  { st with heads := Function.update st.heads epoch ((st.heads epoch).erase h) }

/-- Modelled from the spec: `Store.AddHead`, add an identity to the heads of an
epoch. -/
def Store.AddHead (st : Store) (epoch : Epoch) (h : Hash) : Store :=
  { st with heads := Function.update st.heads epoch (insert h (st.heads epoch)) }

/-- Modelled from the spec: `Store.delEpochStore`, dispose of the derived storage
of an epoch. -/
def Store.delEpochStore (st : Store) (epoch : Epoch) : Store :=
  { st with epochStores := st.epochStores.erase epoch }

/-- Modelled from the spec: `Store.getEpochStore`, materialize the derived
storage of an epoch on first use. -/
def Store.getEpochStore (st : Store) (epoch : Epoch) : Store :=
  { st with epochStores := insert epoch st.epochStores }

/-- Modelled from the spec: `Store.AddLastHeader`, record a header as the last
confirmed header of its creator in an epoch. -/
def Store.AddLastHeader (st : Store) (epoch : Epoch) (header : EventHeaderData) : Store :=
  let hh := Function.update (st.lastHeaders epoch) header.Creator (some header)
  { st with lastHeaders := Function.update st.lastHeaders epoch hh }

/-- Modelled from the spec: `Store.DelLastHeader`, remove the last confirmed
header of one validator in an epoch. -/
def Store.DelLastHeader (st : Store) (epoch : Epoch) (creator : StakerID) : Store :=
  let hh := Function.update (st.lastHeaders epoch) creator none
  { st with lastHeaders := Function.update st.lastHeaders epoch hh }

/-- Modelled from the spec: `Store.GetLastHeaders`, the last confirmed headers of
an epoch by creator. -/
def Store.GetLastHeaders (st : Store) (epoch : Epoch) : StakerID → Option EventHeaderData :=
  st.lastHeaders epoch

/-- Modelled from the spec: `Store.DelLastHeaders`, prune the last-header index of
an epoch. -/
def Store.DelLastHeaders (st : Store) (epoch : Epoch) : Store :=
  { st with lastHeaders := Function.update st.lastHeaders epoch (fun _ => none) }

/-- Modelled from the spec: `Store.GetBlock`, `nil` when the index is absent. -/
def Store.GetBlock (st : Store) (n : BlockIdx) : Option Block := st.blocks n

/-- Modelled from the spec: `Store.SetBlock`, persist a block keyed by index. -/
def Store.SetBlock (st : Store) (block : Block) : Store :=
  { st with blocks := Function.update st.blocks block.Index (some block) }

/-- Modelled from the spec: `Store.SetBlockIndex`, the index-by-Atropos mapping. -/
def Store.SetBlockIndex (st : Store) (atropos : Hash) (n : BlockIdx) : Store :=
  { st with blockIndex := Function.update st.blockIndex atropos (some n) }

/-- Modelled from the spec: `Store.SetTxPosition`, the position keyed by
transaction hash. -/
def Store.SetTxPosition (st : Store) (h : Hash) (position : TxPosition) : Store :=
  { st with txPositions := Function.update st.txPositions h (some position) }

/-- Modelled from the spec: `Store.SetReceipts`, receipts keyed by block index. -/
def Store.SetReceipts (st : Store) (n : BlockIdx) (receipts : List Receipt) : Store :=
  { st with receipts := Function.update st.receipts n (some receipts) }

/-- Calls made on collaborators whose state is not part of the store tables
above: the ordering engine, the occurred-transactions tracker, packing and
emitter observers, the heavy-check reader, the feeds, the score and SFC hooks,
the log index, and `Store.Commit`. The service keeps them in the order made. -/
inductive Call where
  | engineProcessEvent (e : Event)
  | collectNotConfirmedTxs (txs : List Transaction)
  | collectConfirmedTxs (txs : List Transaction)
  | occurredTxsClear
  | packsOnNewEvent (e : Event) (epoch : Epoch)
  | emitterOnNewEvent (e : Event)
  | heavyCheckStoreAddrs (epoch : Epoch)
  | packsOnNewEpoch (oldEpoch newEpoch : Epoch)
  | feedNewEpoch (epoch : Epoch)
  | commit (marker : Bytes) (immediately : Bool)
  | evmLogsPush (logs : List Nat)
  | updateOriginationScores (block : Block) (sealEpoch : Bool)
  | updateValidationScores (block : Block) (sealEpoch : Bool)
  | updateUsersPOI (block : Block) (sealEpoch : Bool)
  | updateStakersPOI (block : Block) (sealEpoch : Bool)
  | processSfc (block : Block) (sealEpoch : Bool) (cheaters : List StakerID)
  | feedChainEvent (evmBlock : EvmBlock)
  | feedNewTxs (txs : List Transaction)
  | feedNewLogs (logs : List Nat)
deriving DecidableEq, Repr

/-- Modelled from the spec: the ordering engine capability `Consensus`
(`ProcessEvent(event) -> error`, `GetEpoch() -> Epoch`), declared outside the
two files. An engine is known by its answers: the epoch it reports now, the
error with which it rejects an event (if any), and the epoch it reports once
it has processed an event. The callbacks it makes are operations of their
own and are not replayed inside `processEvent`. -/
structure Consensus where
  GetEpoch : Epoch
  ProcessEvent : Event → Option Error
  GetEpochAfter : Event → Epoch

/-- The fields of `config` that the callbacks read: `Net.Dag.EpochLen`,
`Net.Dag.MaxValidatorEventsInBlock` and `TxIndex`. -/
structure Config where
  EpochLen : Frame
  MaxValidatorEventsInBlock : EventIdx
  TxIndex : Bool
deriving DecidableEq, Repr

/-- Modelled from the spec: the fields of `Service` (declared in another file of
the package) that the callbacks use. `blockParticipated` is the map
`map[idx.StakerID]bool`; `calls` lists the calls made on collaborators. -/
structure Service where
  config : Config
  store : Store
  engine : Consensus
  blockParticipated : StakerID → Option Bool
  calls : List Call

/-- Append calls to the record of calls made. -/
def Service.record (s : Service) (cs : List Call) : Service :=
  { s with calls := s.calls ++ cs }

/-- What `evmProcessor.Process` returns: receipts, gas used, total fee, skipped
positions, error. -/
structure ProcessResult where
  receipts : List Receipt
  gasUsed : Nat
  totalFee : Nat
  skipped : List Nat
  err : Option Error

/-- Answers of the collaborators whose code is outside the two files:
the gas-power check, `Store.Commit`, `hash.Of`, `types.DeriveSha` on
transactions and on cheaters, `Bytes()` of the last-header collection, the
transaction executor run on the state of a given root, the push of logs into
the log index, and `statedb.Commit`. -/
structure Env where
  gasPowerCheck : Service → Event → Option Error
  Commit : Bytes → Bool → Option Error
  Of : List Bytes → Hash
  DeriveShaTxs : List Transaction → Hash
  DeriveShaCheaters : List StakerID → Hash
  HeadersBytes : (StakerID → Option EventHeaderData) → Bytes
  Process : EvmBlock → Hash → ProcessResult
  EvmLogsPush : List Nat → Option Error
  StateCommit : Hash → Block → Bool → List StakerID → Hash × Option Error

/-! ## Admission -/

/-- Lines 47 to 76 of `processEvent`: the bookkeeping after the event was stored
and the engine, if there is one, accepted it. -/
def processEventAdmitted (env : Env) (s : Service) (realEngine : Option Consensus)
    (oldEpoch : Epoch) (e : Event) : Option Error × Service :=
  let s := s.record [Call.collectNotConfirmedTxs e.Transactions]
  -- set validator's last event
  let s := { s with store := s.store.SetLastEvent e.Epoch e.Creator e.Hash }
  -- track events with no descendants, i.e. heads
  let s := { s with store := e.Parents.foldl (fun st parent => st.DelHead e.Epoch parent) s.store }
  let s := { s with store := s.store.AddHead e.Epoch e.Hash }
  let s := s.record [Call.packsOnNewEvent e e.Epoch, Call.emitterOnNewEvent e]
  let newEpoch :=
    match realEngine with
    | some engine => engine.GetEpochAfter e
    | none => oldEpoch
  let s :=
    if newEpoch != oldEpoch then
      let s := s.record [Call.heavyCheckStoreAddrs newEpoch, Call.packsOnNewEpoch oldEpoch newEpoch]
      let s := { s with store := (s.store.delEpochStore oldEpoch).getEpochStore newEpoch }
      s.record [Call.feedNewEpoch newEpoch, Call.occurredTxsClear]
    else s
  let immediately := newEpoch != oldEpoch
  (env.Commit e.Hash.Bytes immediately, s.record [Call.commit e.Hash.Bytes immediately])

/-- `Service.processEvent`: the returned error (`none` for `nil`) and the service
afterwards. -/
def processEvent (env : Env) (s : Service) (realEngine : Option Consensus) (e : Event) :
    Option Error × Service :=
  if s.store.HasEvent e.Hash then (some ErrAlreadyConnectedEvent, s)
  else
    match env.gasPowerCheck s e with
    | some err => (some err, s)
    | none =>
      let oldEpoch := e.Epoch
      let s := { s with store := s.store.SetEvent e }
      match realEngine with
      | some engine =>
        let s := s.record [Call.engineProcessEvent e]
        match engine.ProcessEvent e with
        | some err => (some err, { s with store := s.store.DeleteEvent e.Epoch e.Hash })
        | none => processEventAdmitted env s realEngine oldEpoch e
      | none => processEventAdmitted env s realEngine oldEpoch e

/-! ## Block application -/

/-- The inner loop of `applyNewState` over the transactions of one event, with
the index `i` of the first transaction still to visit: a hash that has a
position already keeps it. -/
def memorizeEventTxs (eventHash : Hash) : List Transaction → Nat → TxPositions → TxPositions
  | [], _, txPositions => txPositions
  | tx :: rest, i, txPositions =>
    if (txPositions tx.Hash).isSome then memorizeEventTxs eventHash rest (i + 1) txPositions
    else
      memorizeEventTxs eventHash rest (i + 1)
        (Function.update txPositions tx.Hash
          (some { Event := eventHash, EventOffset := toUint32 i }))

/-- The outer loop of `applyNewState` over the block events. -/
def memorizeTxPositions : List Event → TxPositions → TxPositions
  | [], txPositions => txPositions
  | e :: rest, txPositions =>
    memorizeTxPositions rest (memorizeEventTxs e.Hash e.Transactions 0 txPositions)

/-- The second loop of `applyNewState`, over the transactions that were not
skipped: the position of each hash gets the block index and the offset; a
hash without a position starts from the zero value. -/
def memorizeBlockPositions (blockIndex : BlockIdx) :
    List Transaction → Nat → TxPositions → TxPositions
  | [], _, txPositions => txPositions
  | tx :: rest, i, txPositions =>
    let position := (txPositions tx.Hash).getD {}
    let position := { position with Block := blockIndex, BlockOffset := toUint32 i }
    memorizeBlockPositions blockIndex rest (i + 1)
      (Function.update txPositions tx.Hash (some position))

/-- The loop of `assembleEvmBlock` over `block.Events`, carrying the transactions
and the events gathered so far; an identity absent from the store ends in
`Crit`. -/
def assembleLoop (st : Store) :
    List Hash → List Transaction → List Event → Option (List Transaction × List Event)
  | [], txs, blockEvents => some (txs, blockEvents)
  | id :: rest, txs, blockEvents =>
    match st.GetEvent id with
    | none => none
    | some e => assembleLoop st rest (txs ++ e.Transactions) (blockEvents ++ [e])

/-- `Service.assembleEvmBlock`; a block that already has skipped transactions
ends in `Crit`. -/
def assembleEvmBlock (s : Service) (block : Block) : Option (EvmBlock × List Event) :=
  if block.SkippedTxs.length != 0 then none
  else
    match assembleLoop s.store block.Events [] [] with
    | none => none
    | some (txs, blockEvents) =>
      some ({ EvmHeader := ToEvmHeader block, Transactions := txs }, blockEvents)

/-- The loop of `executeEvmTransactions` that pushes the logs of each receipt into
the log index; a failed push ends in `Crit`. -/
def pushLogs (env : Env) : List Receipt → Service → Option Service
  | [], s => some s
  | r :: rest, s =>
    match env.EvmLogsPush r.Logs with
    | some _ => none
    | none => pushLogs env rest (s.record [Call.evmLogsPush r.Logs])

/-- `Service.executeEvmTransactions`, run on the state with root `stateHash`; an
error of the executor ends in `Crit`. -/
def executeEvmTransactions (env : Env) (s : Service) (block : Block) (evmBlock : EvmBlock)
    (stateHash : Hash) : Option (Block × EvmBlock × Nat × List Receipt × Service) :=
  let r := env.Process evmBlock stateHash
  match r.err with
  | some _ => none
  | none =>
    let block := { block with SkippedTxs := r.skipped, GasUsed := r.gasUsed }
    -- Filter skipped transactions
    let evmBlock := filterSkippedTxs block evmBlock
    let block := { block with TxHash := env.DeriveShaTxs evmBlock.Transactions }
    let evmBlock : EvmBlock :=
      { EvmHeader := ToEvmHeader block, Transactions := evmBlock.Transactions }
    match pushLogs env r.receipts s with
    | none => none
    | some s => some (block, evmBlock, r.totalFee, r.receipts, s)

/-- `epoch - 1` on `idx.Epoch`, a `uint32`. -/
def prevEpoch (epoch : Epoch) : Epoch := (epoch + 2 ^ 32 - 1) % 2 ^ 32

/-- `block.Index - 1` on `idx.Block`, a `uint64`. -/
def prevBlockIdx (n : BlockIdx) : BlockIdx := (n + 2 ^ 64 - 1) % 2 ^ 64

/-- `Service.onEpochSealed`: the epoch hash and the service afterwards. The
named result `newEpochHash` holds the zero value when its bytes are read. -/
def onEpochSealed (env : Env) (s : Service) (_block : Block) (cheaters : List StakerID) :
    Hash × Service :=
  let newEpochHash := Hash.zero
  let epoch := s.engine.GetEpoch
  -- update last headers
  let st := cheaters.foldl (fun st cheater => st.DelLastHeader epoch cheater) s.store
  let hh := st.GetLastHeaders epoch
  let newEpochHash :=
    env.Of [newEpochHash.Bytes, (env.Of [env.HeadersBytes hh]).Bytes,
      (env.DeriveShaCheaters cheaters).Bytes]
  -- prune not needed last headers
  let st := st.DelLastHeaders (prevEpoch epoch)
  (newEpochHash, { s with store := st })

/-- The score, proof-of-importance and SFC hooks that `applyNewState` runs after
execution, recorded as calls in the order made. -/
def recordHooks (s : Service) (block : Block) (sealEpoch : Bool) (cheaters : List StakerID) :
    Service :=
  s.record
    [Call.updateOriginationScores block sealEpoch, Call.updateValidationScores block sealEpoch,
     Call.updateUsersPOI block sealEpoch, Call.updateStakersPOI block sealEpoch,
     Call.processSfc block sealEpoch cheaters]

/-- `Service.applyNewState`: block, EVM block, receipts, transaction positions,
application hash, and the service afterwards; `none` when a `Crit` or a `nil`
dereference ends the process. -/
def applyNewState (env : Env) (s : Service) (block : Block) (sealEpoch : Bool)
    (cheaters : List StakerID) :
    Option (Block × EvmBlock × List Receipt × TxPositions × Hash × Service) :=
  -- Assemble block data
  match assembleEvmBlock s block with
  | none => none
  | some (evmBlock, blockEvents) =>
    -- memorize position of each tx
    let txPositions := memorizeTxPositions blockEvents (fun _ => none)
    -- Get stateDB
    match s.store.GetBlock (prevBlockIdx block.Index) with
    | none => none
    | some prev =>
      let stateHash := prev.Root
      -- Process EVM txs
      match executeEvmTransactions env s block evmBlock stateHash with
      | none => none
      | some (block, evmBlock, _totalFee, receipts, s) =>
        -- memorize block position of each tx
        let txPositions := memorizeBlockPositions block.Index evmBlock.Transactions 0 txPositions
        -- Process PoI/score changes, process SFC contract transactions
        let s := recordHooks s block sealEpoch cheaters
        -- Process new epoch
        let sealed := if sealEpoch then onEpochSealed env s block cheaters else (Hash.zero, s)
        let newEpochHash := sealed.1
        let s := sealed.2
        -- Get state root
        match env.StateCommit stateHash block sealEpoch cheaters with
        | (_, some _) => none
        | (newStateHash, none) =>
          let block := { block with Root := newStateHash }
          let evmBlock : EvmBlock :=
            { EvmHeader := ToEvmHeader block, Transactions := evmBlock.Transactions }
          -- calc appHash
          let newAppHash :=
            if sealEpoch then env.Of [newStateHash.Bytes, newEpochHash.Bytes] else newStateHash
          some (block, evmBlock, receipts, txPositions, newAppHash, s)

/-- `Service.applyBlock`: the application hash, `sealEpoch`, and the service
afterwards. -/
def applyBlock (env : Env) (s : Service) (block : Block) (decidedFrame : Frame)
    (cheaters : List StakerID) : Option (Hash × Bool × Service) :=
  let sealEpoch := decide (decidedFrame = s.config.EpochLen)
  match applyNewState env s block sealEpoch cheaters with
  | none => none
  | some (block, evmBlock, receipts, txPositions, newAppHash, s) =>
    let st := (s.store.SetBlock block).SetBlockIndex block.Atropos block.Index
    -- Build index for not skipped txs
    let st :=
      if s.config.TxIndex then
        let st := evmBlock.Transactions.foldl
          (fun st tx => st.SetTxPosition tx.Hash ((txPositions tx.Hash).getD {})) st
        if receipts.length != 0 then st.SetReceipts block.Index receipts else st
      else st
    let logs := (receipts.map (fun r => r.Logs)).flatten
    -- Notify about new block and txs
    let s := ({ s with store := st }).record
      [Call.feedChainEvent evmBlock, Call.feedNewTxs evmBlock.Transactions, Call.feedNewLogs logs]
    some (newAppHash, sealEpoch, { s with blockParticipated := fun _ => none })

/-! ## Engine callbacks -/

/-- `Service.onEventConfirmed`; `none` when the event of a header that carries
transactions is absent from the store (a `nil` dereference). -/
def onEventConfirmed (s : Service) (header : EventHeaderData) (seqDepth : EventIdx) :
    Option Service :=
  let confirmed :=
    if !header.NoTransactions then
      match s.store.GetEvent header.Hash with
      | none => none
      | some event => some (s.record [Call.collectConfirmedTxs event.Transactions])
    else some s
  match confirmed with
  | none => none
  | some s =>
    -- track last confirmed events from each validator
    let s := if seqDepth == 0 then { s with store := s.store.AddLastHeader header.Epoch header } else s
    -- track validators who participated in the block
    some { s with blockParticipated := Function.update s.blockParticipated header.Creator (some true) }

/-- `Service.isEventAllowedIntoBlock`. -/
def isEventAllowedIntoBlock (s : Service) (header : EventHeaderData) (seqDepth : EventIdx) : Bool :=
  if header.NoTransactions then false
  else if seqDepth > s.config.MaxValidatorEventsInBlock then false
  else true

/-- Whether an event carries a transaction with the given hash. -/
def carries (h : Hash) (e : Event) : Bool := e.Transactions.any (fun t => decide (t.Hash = h))

/-- The collection `hh` that `onEpochSealed` reads with `GetLastHeaders` after the
cheaters' entries were deleted, and whose bytes it hashes. -/
def sealedLastHeaders (s : Service) (cheaters : List StakerID) :
    StakerID → Option EventHeaderData :=
  (cheaters.foldl (fun st cheater => st.DelLastHeader s.engine.GetEpoch cheater)
    s.store).GetLastHeaders s.engine.GetEpoch

/-- The positions that the loop of `filterSkippedTxs` drops, read off the part of
the skip list still ahead, the index `i` reached and the number of
transactions still to visit. Used to reason about `filterLoop`. -/
def removedPositions : List Nat → Nat → Nat → List Nat
  | _, _, 0 => []
  | [], _, _ + 1 => []
  | k :: ahead, i, n + 1 =>
    if k = i then i :: removedPositions ahead (i + 1) n
    else removedPositions (k :: ahead) (i + 1) n

/-- The longest run of entries at the start of a skip list that is strictly
increasing and stays below `n`; `lo` is the least value the next entry may
have. Used to name the positions that the loop of `filterSkippedTxs` drops. -/
def honoredSkips (n : Nat) : List Nat → Nat → List Nat
  | [], _ => []
  | k :: rest, lo =>
    if lo ≤ k ∧ k < n then k :: honoredSkips n rest (k + 1) else []

/-! ## Validator selection -/

/-- Modelled from the spec: `pos.Stake`, the voting power of a validator, declared
outside the two files. -/
abbrev Stake := Nat

/-- Modelled from the spec: the staker record of the staking ledger, declared
outside the two files, with its own stake and the stake delegated to it. -/
structure SfcStaker where
  StakeAmount : Nat
  DelegatedMe : Nat
deriving DecidableEq, Repr

/-- Modelled from the spec: `CalcTotalStake`, the total stake of a staker. -/
def SfcStaker.CalcTotalStake (st : SfcStaker) : Nat := st.StakeAmount + st.DelegatedMe

/-- Modelled from the spec: an entry of `Store.GetEpochValidators`, a staker with
its identifier. -/
structure SfcStakerAndID where
  StakerID : StakerID
  Staker : SfcStaker
deriving DecidableEq, Repr

/-- Modelled from the spec: the staking ledger and the conversion that
`selectValidatorsGroup` consults, both outside the two files:
`Store.GetEpochValidators`, the stakers stored for an epoch in the order
enumerated, and `pos.BalanceToStake`, the stake to voting-power conversion. -/
structure Staking where
  GetEpochValidators : Epoch → List SfcStakerAndID
  BalanceToStake : Nat → Stake

/-- Modelled from the spec: `pos.ValidatorsBuilder` and the `pos.Validators` it
builds, declared outside the two files: the voting power per validator. -/
abbrev Validators := StakerID → Option Stake

/-- Modelled from the spec: `pos.NewBuilder`, a builder with no validator. -/
def NewBuilder : Validators := fun _ => none

/-- Modelled from the spec: `Set` of the builder: a staker with nonzero stake
becomes a validator with that weight, a staker with zero stake is not a
validator. -/
def Validators.Set (builder : Validators) (id : StakerID) (stake : Stake) : Validators :=
  if stake = 0 then Function.update builder id none
  else Function.update builder id (some stake)

/-- Modelled from the spec: `Build` of the builder, the validator set holding the
entries of the builder. -/
def Validators.Build (builder : Validators) : Validators := builder

/-- `Service.selectValidatorsGroup`. -/
def selectValidatorsGroup (staking : Staking) (_s : Service) (_oldEpoch newEpoch : Epoch) :
    Validators :=
  let builder := NewBuilder
  let builder := (staking.GetEpochValidators newEpoch).foldl
    (fun builder it =>
      builder.Set it.StakerID (staking.BalanceToStake it.Staker.CalcTotalStake))
    builder
  builder.Build

/-! ## Sample data -/

/-- A sample transaction known by one byte. -/
def sampleTx (b : Nat) : Transaction := { Hash := ⟨[b]⟩, Data := [b] }

/-- A sample event of epoch 1 with the given identity byte, creator, parents and
transactions. -/
def sampleEvent (id : Nat) (creator : StakerID) (parents : List Hash)
    (txs : List Transaction) : Event :=
  { Epoch := 1, Creator := creator, Parents := parents,
    NoTransactions := txs.isEmpty, Hash := ⟨[id]⟩, Transactions := txs }

/-- Sample answers of the collaborators. The stand-in for `hash.Of` is free of
collisions: the digest of the concatenated inputs is the concatenation. -/
def sampleEnv : Env :=
  { gasPowerCheck := fun _ _ => none
    Commit := fun _ _ => none
    Of := fun data => ⟨data.flatten⟩
    DeriveShaTxs := fun txs => ⟨(txs.map (fun t => t.Hash.Bytes)).flatten⟩
    DeriveShaCheaters := fun cheaters => ⟨cheaters⟩
    HeadersBytes := fun hh =>
      ((List.range 8).map (fun v =>
        match hh v with
        | some header => header.Hash.Bytes
        | none => [])).flatten
    Process := fun _ _ =>
      { receipts := [⟨[5]⟩], gasUsed := 21, totalFee := 1, skipped := [1], err := none }
    EvmLogsPush := fun _ => none
    StateCommit := fun stateHash block _ _ => (⟨stateHash.Bytes ++ block.TxHash.Bytes⟩, none) }

/-- A sample store: two events of epoch 1, block 0 with root `[100]`, and last
confirmed headers of validators 1, 2 and 3 in epoch 1. -/
def sampleStore : Store :=
  { events := fun h =>
      if h = ⟨[1]⟩ then some (sampleEvent 1 1 [] [sampleTx 7, sampleTx 8])
      else if h = ⟨[2]⟩ then some (sampleEvent 2 2 [⟨[1]⟩] [sampleTx 8, sampleTx 9])
      else none
    lastEvents := fun _ _ => none
    heads := fun _ => ∅
    lastHeaders := fun epoch v =>
      if epoch = 1 ∧ 1 ≤ v ∧ v ≤ 3 then
        some { Epoch := 1, Creator := v, Parents := [], NoTransactions := false, Hash := ⟨[10 + v]⟩ }
      else none
    epochStores := {1}
    blocks := fun n =>
      if n = 0 then
        some { Index := 0, Atropos := Hash.zero, Events := [], SkippedTxs := [], GasUsed := 0,
               TxHash := Hash.zero, Root := ⟨[100]⟩ }
      else none
    blockIndex := fun _ => none
    txPositions := fun _ => none
    receipts := fun _ => none }

/-- A sample engine in epoch 1 that accepts every event but the one with
identity `[66]`, and stays in epoch 1. -/
def sampleEngine : Consensus :=
  { GetEpoch := 1
    ProcessEvent := fun e => if e.Hash = ⟨[66]⟩ then some "rejected" else none
    GetEpochAfter := fun _ => 1 }

/-- A sample service with epochs of 4 frames. -/
def sampleService : Service :=
  { config := { EpochLen := 4, MaxValidatorEventsInBlock := 3, TxIndex := true }
    store := sampleStore
    engine := sampleEngine
    blockParticipated := fun _ => none
    calls := [] }

/-- A sample decided block, number 1, made of the two stored events. -/
def sampleBlock : Block :=
  { Index := 1, Atropos := ⟨[2]⟩, Events := [⟨[1]⟩, ⟨[2]⟩], SkippedTxs := [], GasUsed := 0,
    TxHash := Hash.zero, Root := Hash.zero }

end gossip

/-! # Event hashes (`src/posposet/event_hash.go`) -/

namespace posposet

/-- Go `error` values, known by their message. -/
abbrev Error := String

/-- `EventHash`: a `common.Hash`, that is 32 bytes. -/
structure EventHash where
  bytes : List (Fin 256)
  width : bytes.length = 32
deriving DecidableEq, Repr

/-- `EventHash.Bytes`: the value as a byte slice. -/
def EventHash.Bytes (hash : EventHash) : List (Fin 256) := hash.bytes

/-- `ZeroEventHash`. -/
def ZeroEventHash : EventHash := ⟨List.replicate 32 0, by simp⟩

/-- `EventHashSlice`: a sortable slice of hashes. -/
abbrev EventHashSlice := List EventHash

/-- `EventHashes`, a `map[EventHash]struct{}`: the keys it holds, listed in the
order in which a `range` over the map visits them. A Go map holds a key at most
once, and fixes no iteration order. -/
structure EventHashes where
  keys : List EventHash
deriving DecidableEq, Repr

/-- `bytes.Compare` of the Go standard library: lexicographic comparison of two
byte slices, returning -1, 0 or +1. -/
def bytesCompare : List (Fin 256) → List (Fin 256) → Int
  | [], [] => 0
  | [], _ :: _ => -1
  | _ :: _, [] => 1
  | a :: as, b :: bs =>
    if a < b then -1 else if b < a then 1 else bytesCompare as bs

/-- The comparison inside `EventHashSlice.Less`, on two elements. -/
def EventHash.less (a b : EventHash) : Bool := decide (bytesCompare a.Bytes b.Bytes < 0)

/-- `EventHashSlice.Less(i, j)` for two positions of the slice. -/
def EventHashSlice.Less (hh : EventHashSlice) (i j : Nat)
    (hi : i < hh.length) (hj : j < hh.length) : Bool :=
  decide (bytesCompare (hh.get ⟨i, hi⟩).Bytes (hh.get ⟨j, hj⟩).Bytes < 0)

/-- `EventHashes.Contains`. -/
def EventHashes.Contains (hh : EventHashes) (hash : EventHash) : Bool :=
  decide (hash ∈ hh.keys)

/-- The loop of `EventHashes.Add` over its arguments, carrying the map and the
result `changed`. -/
def addLoop : List EventHash → EventHashes → Bool → EventHashes × Bool
  | [], hh, changed => (hh, changed)
  | h :: rest, hh, changed =>
    if !hh.Contains h then addLoop rest ⟨hh.keys ++ [h]⟩ true
    else addLoop rest hh changed

/-- `EventHashes.Add(hash...)` on an allocated map, where no write can panic:
the map afterwards, and `changed`. -/
def EventHashes.addAllocated (hh : EventHashes) (hash : List EventHash) : EventHashes × Bool :=
  addLoop hash hh false

/-- The loop of `EventHashes.Add` over its arguments for a receiver that may be
the nil map (`none`), carrying the receiver and the result `changed`. On the
nil map the lookup `hh[h]` finds nothing, and the assignment
`hh[h] = struct{}{}` panics: `none`. -/
def addLoopNilable :
    List EventHash → Option EventHashes → Bool → Option (Option EventHashes × Bool)
  | [], hh, changed => some (hh, changed)
  | _ :: _, none, _ => none
  | h :: rest, some m, changed =>
    if !m.Contains h then addLoopNilable rest (some ⟨m.keys ++ [h]⟩) true
    else addLoopNilable rest (some m) changed

/-- `EventHashes.Add(hash...)`: the receiver afterwards and `changed`, or `none`
when the call panics. The receiver is `none` for the nil map and `some` for an
allocated map. -/
def EventHashes.Add (hh : Option EventHashes) (hash : List EventHash) :
    Option (Option EventHashes × Bool) :=
  addLoopNilable hash hh false

/-- `sort.Sort` of the Go standard library, which orders a slice through `Less`
alone: here insertion sort, placing `a` before the first `b` with `Less(b, a)`
false. -/
def sortSlice (arr : EventHashSlice) : EventHashSlice :=
  arr.insertionSort (fun a b => b.less a = false)

/-- `EventHashes.EncodeRLP`: the array handed to `rlp.Encode`, that is the keys
in iteration order, sorted. -/
def EventHashes.EncodeRLP (hh : EventHashes) : EventHashSlice :=
  sortSlice hh.keys

/-- The loop of `EventHashes.DecodeRLP` over the decoded array. The receiver of
`res.Add(h)` is the map `EventHashes{}` allocated by `DecodeRLP`, so the call
is `addAllocated`. -/
def decodeLoop : List EventHash → EventHashes → Except Error EventHashes
  | [], res => .ok res
  | h :: rest, res =>
    if !(res.addAllocated [h]).2 then .error "Double value is detected"
    else decodeLoop rest (res.addAllocated [h]).1

/-- `EventHashes.DecodeRLP`, given what `s.Decode(&arr)` produced: its error, or
the decoded array. -/
def EventHashes.DecodeRLP (decoded : Except Error EventHashSlice) : Except Error EventHashes :=
  match decoded with
  | .error err => .error err
  | .ok arr => decodeLoop arr ⟨[]⟩

/-- A hash whose last byte is `b` and whose other bytes are zero. -/
def EventHash.ofByte (b : Fin 256) : EventHash := ⟨List.replicate 31 0 ++ [b], by simp⟩

end posposet


namespace gossip

theorem filterLoop_eq_filterAhead {α : Type} (skipped : List Nat) (txs : List α) :
    ∀ (i skipCount : Nat) (filteredTxs : List α),
      filterLoop skipped txs i skipCount filteredTxs
        = filteredTxs ++ filterAhead (skipped.drop skipCount) i txs := by
  induction txs with
  | nil => intro i sc acc; simp [filterLoop, filterAhead]
  | cons tx rest ih =>
    intro i sc acc
    by_cases hlt : sc < skipped.length
    · have hdrop : skipped.drop sc = skipped.getD sc 0 :: skipped.drop (sc + 1) := by
        rw [List.drop_eq_getElem_cons hlt]
        simp [List.getD_eq_getElem?_getD, List.getElem?_eq_getElem hlt]
      by_cases hk : skipped.getD sc 0 = i
      · rw [hdrop]
        simp only [filterLoop, filterAhead, hlt, hk, decide_True, beq_self_eq_true,
          Bool.and_self, if_true]
        rw [ih]
      · rw [hdrop]
        have hb : (skipped.getD sc 0 == i) = false := by simpa using hk
        simp only [filterLoop, filterAhead, hlt, hk, hb, decide_True, Bool.and_false,
          if_false, Bool.false_eq_true]
        rw [ih, hdrop, List.append_assoc, List.singleton_append]
    · have hdrop : skipped.drop sc = [] := List.drop_eq_nil_of_le (by omega)
      have hb : decide (sc < skipped.length) = false := by simpa using hlt
      rw [hdrop]
      simp only [filterLoop, filterAhead, hb, Bool.false_and, if_false, Bool.false_eq_true]
      rw [ih, hdrop]
      simp

theorem filterAhead_sorted {α : Type} (txs : List α) :
    ∀ (ahead : List Nat) (i : Nat), ahead.Pairwise (· < ·) →
      (∀ k ∈ ahead, i ≤ k ∧ k < i + txs.length) →
      filterAhead ahead i txs
          = ((txs.enumFrom i).filter (fun p => decide (p.1 ∉ ahead))).map Prod.snd
        ∧ (filterAhead ahead i txs).length + ahead.length = txs.length := by
  induction txs with
  | nil =>
    intro ahead i _ hr
    cases ahead with
    | nil => simp [filterAhead]
    | cons k t => have := hr k (List.mem_cons_self _ _); simp at this; omega
  | cons tx rest ih =>
    intro ahead i hs hr
    cases ahead with
    | nil =>
      have h := ih [] (i + 1) List.Pairwise.nil (by simp)
      simp only [filterAhead, List.enumFrom_cons, List.not_mem_nil, not_false_eq_true,
        decide_True, List.filter_cons_of_pos, List.map_cons, List.length_cons,
        List.length_nil, Nat.add_zero]
      refine ⟨?_, by simpa using h.2⟩
      rw [h.1]; simp
    | cons k t =>
      have hk := hr k (List.mem_cons_self _ _)
      rw [List.pairwise_cons] at hs
      by_cases hki : k = i
      · subst hki
        have h := ih t (k + 1) hs.2 (fun k' hk' => by
          have h1 := hs.1 k' hk'
          have h2 := hr k' (List.mem_cons_of_mem _ hk')
          simp only [List.length_cons] at h2
          omega)
        simp only [filterAhead, if_true, List.enumFrom_cons, List.length_cons]
        refine ⟨?_, by omega⟩
        rw [h.1, List.filter_cons_of_neg (by simp)]
        congr 1
        apply List.filter_congr
        intro p hp
        have hle := List.le_fst_of_mem_enumFrom hp
        have hne : p.1 ≠ k := by omega
        simp [hne]
      · have h := ih (k :: t) (i + 1) (List.pairwise_cons.mpr hs) (fun k' hk' => by
          have h2 := hr k' hk'
          simp only [List.length_cons] at h2
          rcases List.mem_cons.mp hk' with rfl | hk''
          · omega
          · have := hs.1 k' hk''; omega)
        have hnot : i ∉ k :: t := by
          intro hmem
          rcases List.mem_cons.mp hmem with rfl | hit
          · exact hki rfl
          · have := hs.1 i hit; omega
        simp only [filterAhead, hki, if_false, List.enumFrom_cons, List.length_cons]
        refine ⟨?_, by have := h.2; simp only [List.length_cons] at this; omega⟩
        rw [List.filter_cons_of_pos (by simpa using hnot), List.map_cons, h.1]

/-- C1. `filterSkippedTxs` with a strictly increasing skip list whose entries are
all positions of the transaction list: the result is the list with exactly the
listed positions removed (the remaining transactions in their original order,
so it is a sublist), its length is the original length minus the number of
skipped positions, and the header is untouched. -/
theorem filterSkippedTxs_removes_listed (block : Block) (evmBlock : EvmBlock)
    (hsorted : block.SkippedTxs.Pairwise (· < ·))
    (hrange : ∀ k ∈ block.SkippedTxs, k < evmBlock.Transactions.length) :
    (filterSkippedTxs block evmBlock).Transactions
        = ((evmBlock.Transactions.enumFrom 0).filter
            (fun p => decide (p.1 ∉ block.SkippedTxs))).map Prod.snd
      ∧ (filterSkippedTxs block evmBlock).Transactions.length
        = evmBlock.Transactions.length - block.SkippedTxs.length
      ∧ (filterSkippedTxs block evmBlock).Transactions.Sublist evmBlock.Transactions
      ∧ (filterSkippedTxs block evmBlock).EvmHeader = evmBlock.EvmHeader := by
  have h := filterAhead_sorted evmBlock.Transactions block.SkippedTxs 0 hsorted
    (fun k hk => ⟨Nat.zero_le _, by simpa using hrange k hk⟩)
  have hloop : (filterSkippedTxs block evmBlock).Transactions
      = filterAhead block.SkippedTxs 0 evmBlock.Transactions := by
    simp [filterSkippedTxs, filterLoop_eq_filterAhead]
  refine ⟨by rw [hloop, h.1], by rw [hloop]; omega, ?_, rfl⟩
  rw [hloop, h.1]
  have hsub := List.filter_sublist
    (p := fun p : Nat × Transaction => decide (p.1 ∉ block.SkippedTxs))
    (l := evmBlock.Transactions.enumFrom 0)
  have := hsub.map Prod.snd
  simpa [List.enumFrom_map_snd] using this

/-- C1, at a block of five transactions with skip list `[1, 3]`. -/
theorem filterSkippedTxs_removes_listed_witness :
    (filterSkippedTxs
        { Index := 1, Atropos := Hash.zero, Events := [], SkippedTxs := [1, 3], GasUsed := 0,
          TxHash := Hash.zero, Root := Hash.zero }
        { EvmHeader := ToEvmHeader
            { Index := 1, Atropos := Hash.zero, Events := [], SkippedTxs := [1, 3], GasUsed := 0,
              TxHash := Hash.zero, Root := Hash.zero },
          Transactions := [⟨⟨[0]⟩, []⟩, ⟨⟨[1]⟩, []⟩, ⟨⟨[2]⟩, []⟩, ⟨⟨[3]⟩, []⟩, ⟨⟨[4]⟩, []⟩] }).Transactions
      = [⟨⟨[0]⟩, []⟩, ⟨⟨[2]⟩, []⟩, ⟨⟨[4]⟩, []⟩] := by
  have h := (filterSkippedTxs_removes_listed
    { Index := 1, Atropos := Hash.zero, Events := [], SkippedTxs := [1, 3], GasUsed := 0,
      TxHash := Hash.zero, Root := Hash.zero }
    { EvmHeader := ToEvmHeader
        { Index := 1, Atropos := Hash.zero, Events := [], SkippedTxs := [1, 3], GasUsed := 0,
          TxHash := Hash.zero, Root := Hash.zero },
      Transactions := [⟨⟨[0]⟩, []⟩, ⟨⟨[1]⟩, []⟩, ⟨⟨[2]⟩, []⟩, ⟨⟨[3]⟩, []⟩, ⟨⟨[4]⟩, []⟩] }
    (by decide) (by decide)).1
  rw [h]
  decide

theorem memorizeEventTxs_keeps (eventHash : Hash) (h : Hash) :
    ∀ (txs : List Transaction) (i : Nat) (m : TxPositions) (pos : TxPosition),
      m h = some pos → memorizeEventTxs eventHash txs i m h = some pos := by
  intro txs
  induction txs with
  | nil => intro i m pos hm; simpa [memorizeEventTxs] using hm
  | cons tx rest ih =>
    intro i m pos hm
    by_cases hs : (m tx.Hash).isSome = true
    · simp only [memorizeEventTxs, hs, if_true]
      exact ih _ m pos hm
    · simp only [memorizeEventTxs, hs, if_false, Bool.false_eq_true]
      apply ih
      have hne : h ≠ tx.Hash := by
        rintro rfl
        rw [hm] at hs; simp at hs
      rw [Function.update_noteq hne]
      exact hm

theorem memorizeEventTxs_absent (eventHash : Hash) (h : Hash) :
    ∀ (txs : List Transaction) (i : Nat) (m : TxPositions),
      m h = none → (∀ t ∈ txs, t.Hash ≠ h) → memorizeEventTxs eventHash txs i m h = none := by
  intro txs
  induction txs with
  | nil => intro i m hm _; simpa [memorizeEventTxs] using hm
  | cons tx rest ih =>
    intro i m hm hno
    have hne : h ≠ tx.Hash := fun heq => hno tx (List.mem_cons_self _ _) heq.symm
    have hrest : ∀ t ∈ rest, t.Hash ≠ h := fun t ht => hno t (List.mem_cons_of_mem _ ht)
    by_cases hs : (m tx.Hash).isSome = true
    · simp only [memorizeEventTxs, hs, if_true]
      exact ih _ m hm hrest
    · simp only [memorizeEventTxs, hs, if_false, Bool.false_eq_true]
      apply ih _ _ _ hrest
      rw [Function.update_noteq hne]
      exact hm

theorem memorizeEventTxs_first (eventHash : Hash) (h : Hash) :
    ∀ (txs : List Transaction) (i : Nat) (m : TxPositions),
      m h = none → (∃ t ∈ txs, t.Hash = h) →
      memorizeEventTxs eventHash txs i m h
        = some { Event := eventHash,
                 EventOffset := toUint32 (i + txs.findIdx (fun t => decide (t.Hash = h))) } := by
  intro txs
  induction txs with
  | nil => intro i m _ hex; simp at hex
  | cons tx rest ih =>
    intro i m hm hex
    by_cases hh : tx.Hash = h
    · have hs : (m tx.Hash).isSome = false := by rw [hh, hm]; rfl
      simp only [memorizeEventTxs, hs, if_false, Bool.false_eq_true]
      rw [memorizeEventTxs_keeps eventHash h rest (i + 1) _
        { Event := eventHash, EventOffset := toUint32 i } (by rw [← hh]; simp)]
      simp [List.findIdx_cons, hh]
    · have hex' : ∃ t ∈ rest, t.Hash = h := by
        obtain ⟨t, ht, hth⟩ := hex
        rcases List.mem_cons.mp ht with rfl | ht'
        · exact absurd hth hh
        · exact ⟨t, ht', hth⟩
      have hidx : i + (tx :: rest).findIdx (fun t => decide (t.Hash = h))
          = (i + 1) + rest.findIdx (fun t => decide (t.Hash = h)) := by
        simp [List.findIdx_cons, hh]; omega
      rw [hidx]
      by_cases hs : (m tx.Hash).isSome = true
      · simp only [memorizeEventTxs, hs, if_true]
        exact ih _ m hm hex'
      · simp only [memorizeEventTxs, hs, if_false, Bool.false_eq_true]
        apply ih _ _ _ hex'
        rw [Function.update_noteq (Ne.symm hh)]
        exact hm

theorem carries_iff (h : Hash) (e : Event) :
    carries h e = true ↔ ∃ t ∈ e.Transactions, t.Hash = h := by
  simp [carries]

theorem memorizeTxPositions_keeps (h : Hash) :
    ∀ (events : List Event) (m : TxPositions) (pos : TxPosition),
      m h = some pos → memorizeTxPositions events m h = some pos := by
  intro events
  induction events with
  | nil => intro m pos hm; simpa [memorizeTxPositions] using hm
  | cons e rest ih =>
    intro m pos hm
    simp only [memorizeTxPositions]
    exact ih _ pos (memorizeEventTxs_keeps e.Hash h e.Transactions 0 m pos hm)

theorem memorizeTxPositions_first (h : Hash) :
    ∀ (events : List Event) (m : TxPositions), m h = none →
      (∃ e ∈ events, carries h e = true) →
      ∃ e, events.find? (carries h) = some e ∧
        memorizeTxPositions events m h
          = some { Event := e.Hash,
                   EventOffset := toUint32 (e.Transactions.findIdx (fun t => decide (t.Hash = h))) } := by
  intro events
  induction events with
  | nil => intro m _ hex; simp at hex
  | cons e rest ih =>
    intro m hm hex
    by_cases hc : carries h e = true
    · refine ⟨e, by simp [List.find?_cons, hc], ?_⟩
      simp only [memorizeTxPositions]
      apply memorizeTxPositions_keeps
      have := memorizeEventTxs_first e.Hash h e.Transactions 0 m hm ((carries_iff h e).mp hc)
      simpa using this
    · have hex' : ∃ e' ∈ rest, carries h e' = true := by
        obtain ⟨e', he', hce'⟩ := hex
        rcases List.mem_cons.mp he' with rfl | he''
        · exact absurd hce' hc
        · exact ⟨e', he'', hce'⟩
      have hno : ∀ t ∈ e.Transactions, t.Hash ≠ h := by
        intro t ht hth
        exact hc ((carries_iff h e).mpr ⟨t, ht, hth⟩)
      obtain ⟨e', hfind, hpos⟩ :=
        ih (memorizeEventTxs e.Hash e.Transactions 0 m)
          (memorizeEventTxs_absent e.Hash h e.Transactions 0 m hm hno) hex'
      refine ⟨e', ?_, ?_⟩
      · have hc' : carries h e = false := by simpa using hc
        simp [List.find?_cons, hc', hfind]
      · simpa [memorizeTxPositions] using hpos

theorem memorizeTxPositions_append (events more : List Event) (m : TxPositions) :
    memorizeTxPositions (events ++ more) m
      = memorizeTxPositions more (memorizeTxPositions events m) := by
  induction events generalizing m with
  | nil => rfl
  | cons e rest ih => simp [memorizeTxPositions, ih]

/-- C2. Provenance in `applyNewState`: for a transaction hash that occurs in the
block events, the map built by the first loop holds for it the hash of the
first event, in the order of the events, that carries a transaction with that
hash, and as `EventOffset` the `uint32` of the smallest offset of such a
transaction in that event (the offset itself when it is below 2^32); block
fields are still zero; events that follow never change the entry. -/
theorem txPositions_first_seen (events : List Event) (h : Hash)
    (hocc : ∃ e ∈ events, ∃ t ∈ e.Transactions, t.Hash = h) :
    ∃ e, events.find? (carries h) = some e
      ∧ memorizeTxPositions events (fun _ => none) h
          = some { Block := 0, Event := e.Hash,
                   EventOffset := toUint32 (e.Transactions.findIdx (fun t => decide (t.Hash = h))),
                   BlockOffset := 0 }
      ∧ (e.Transactions.length ≤ 2 ^ 32 →
          toUint32 (e.Transactions.findIdx (fun t => decide (t.Hash = h)))
            = e.Transactions.findIdx (fun t => decide (t.Hash = h)))
      ∧ (∀ more : List Event,
          memorizeTxPositions (events ++ more) (fun _ => none) h
            = memorizeTxPositions events (fun _ => none) h) := by
  have hocc' : ∃ e ∈ events, carries h e = true := by
    obtain ⟨e, he, hex⟩ := hocc
    exact ⟨e, he, (carries_iff h e).mpr hex⟩
  obtain ⟨e, hfind, hpos⟩ := memorizeTxPositions_first h events (fun _ => none) rfl hocc'
  refine ⟨e, hfind, hpos, ?_, ?_⟩
  · intro hlen
    have hc : carries h e = true := by simpa using List.find?_some hfind
    have hlt : e.Transactions.findIdx (fun t => decide (t.Hash = h)) < e.Transactions.length := by
      apply List.findIdx_lt_length_of_exists
      obtain ⟨t, ht, hth⟩ := (carries_iff h e).mp hc
      exact ⟨t, ht, by simpa using hth⟩
    exact Nat.mod_eq_of_lt (by omega)
  · intro more
    rw [memorizeTxPositions_append, hpos]
    exact memorizeTxPositions_keeps h more _ _ hpos

/-- C2, at two events that both carry the transaction 8: the first in order wins,
at offset 1. -/
theorem txPositions_first_seen_witness :
    ∃ e, [sampleEvent 1 1 [] [sampleTx 7, sampleTx 8, sampleTx 8],
          sampleEvent 2 2 [] [sampleTx 8, sampleTx 9]].find? (carries ⟨[8]⟩) = some e
      ∧ memorizeTxPositions
          [sampleEvent 1 1 [] [sampleTx 7, sampleTx 8, sampleTx 8],
           sampleEvent 2 2 [] [sampleTx 8, sampleTx 9]] (fun _ => none) ⟨[8]⟩
        = some { Block := 0, Event := e.Hash,
                 EventOffset := toUint32 (e.Transactions.findIdx (fun t => decide (t.Hash = ⟨[8]⟩))),
                 BlockOffset := 0 } :=
  let ⟨e, h1, h2, _⟩ := txPositions_first_seen
    [sampleEvent 1 1 [] [sampleTx 7, sampleTx 8, sampleTx 8],
     sampleEvent 2 2 [] [sampleTx 8, sampleTx 9]] ⟨[8]⟩
    ⟨sampleEvent 1 1 [] [sampleTx 7, sampleTx 8, sampleTx 8], by decide,
     sampleTx 8, by decide, rfl⟩
  ⟨e, h1, h2⟩

theorem foldl_DelLastHeader (epoch : Epoch) :
    ∀ (cheaters : List StakerID) (st : Store),
      (cheaters.foldl (fun st cheater => st.DelLastHeader epoch cheater) st).lastHeaders epoch
        = fun v => if v ∈ cheaters then none else st.lastHeaders epoch v := by
  intro cheaters
  induction cheaters with
  | nil => intro st; simp
  | cons c rest ih =>
    intro st
    rw [List.foldl_cons, ih]
    funext v
    by_cases hv : v ∈ rest
    · simp [hv]
    · by_cases hvc : v = c
      · subst hvc; simp [hv, Store.DelLastHeader]
      · simp [hv, hvc, Store.DelLastHeader, Function.update_noteq hvc]

theorem pushLogs_frame (env : Env) :
    ∀ (receipts : List Receipt) (s s1 : Service), pushLogs env receipts s = some s1 →
      s1.store = s.store ∧ s1.engine = s.engine ∧ s1.config = s.config
        ∧ s1.blockParticipated = s.blockParticipated := by
  intro receipts
  induction receipts with
  | nil => intro s s1 h; simp only [pushLogs, Option.some.injEq] at h; subst h; simp
  | cons r rest ih =>
    intro s s1 h
    simp only [pushLogs] at h
    cases hp : env.EvmLogsPush r.Logs with
    | some err => rw [hp] at h; cases h
    | none =>
      rw [hp] at h
      have := ih _ _ h
      simpa [Service.record] using this

theorem executeEvmTransactions_frame (env : Env) (s : Service) (block : Block)
    (evmBlock : EvmBlock) (stateHash : Hash) (block1 : Block) (evmBlock1 : EvmBlock)
    (totalFee : Nat) (receipts : List Receipt) (s1 : Service)
    (h : executeEvmTransactions env s block evmBlock stateHash
      = some (block1, evmBlock1, totalFee, receipts, s1)) :
    s1.store = s.store ∧ s1.engine = s.engine ∧ s1.config = s.config
      ∧ s1.blockParticipated = s.blockParticipated := by
  simp only [executeEvmTransactions] at h
  cases herr : (env.Process evmBlock stateHash).err with
  | some err => rw [herr] at h; cases h
  | none =>
    rw [herr] at h
    simp only at h
    cases hp : pushLogs env (env.Process evmBlock stateHash).receipts s with
    | none => rw [hp] at h; cases h
    | some s2 =>
      rw [hp] at h
      simp only [Option.some.injEq, Prod.mk.injEq] at h
      obtain ⟨_, _, _, _, hs⟩ := h
      subst hs
      exact pushLogs_frame env _ _ _ hp

theorem applyNewState_eq (env : Env) (s : Service) (block : Block) (sealEpoch : Bool)
    (cheaters : List StakerID) (evmBlock : EvmBlock) (blockEvents : List Event) (prev : Block)
    (block1 : Block) (evmBlock1 : EvmBlock) (totalFee : Nat) (receipts : List Receipt)
    (s1 : Service) (root : Hash)
    (h1 : assembleEvmBlock s block = some (evmBlock, blockEvents))
    (h2 : s.store.GetBlock (prevBlockIdx block.Index) = some prev)
    (h3 : executeEvmTransactions env s block evmBlock prev.Root
      = some (block1, evmBlock1, totalFee, receipts, s1))
    (h4 : env.StateCommit prev.Root block1 sealEpoch cheaters = (root, none)) :
    applyNewState env s block sealEpoch cheaters
      = some ({ block1 with Root := root },
          { EvmHeader := ToEvmHeader { block1 with Root := root },
            Transactions := evmBlock1.Transactions },
          receipts,
          memorizeBlockPositions block1.Index evmBlock1.Transactions 0
            (memorizeTxPositions blockEvents (fun _ => none)),
          (if sealEpoch then
            env.Of [root.Bytes,
              (onEpochSealed env (recordHooks s1 block1 sealEpoch cheaters) block1 cheaters).1.Bytes]
           else root),
          (if sealEpoch then
            (onEpochSealed env (recordHooks s1 block1 sealEpoch cheaters) block1 cheaters).2
           else recordHooks s1 block1 sealEpoch cheaters)) := by
  simp only [applyNewState, h1, h2, h3, h4]
  cases sealEpoch <;> simp

/-- C3, as stated, fails: with a collision-free `hash.Of`, last headers of
validators 1, 2, 3 and cheater list `[3]`, the hash that `onEpochSealed`
returns differs from the hash of the two inputs `Hash(H.Bytes())` and
`DeriveSha(C).Bytes()` alone. -/
theorem onEpochSealed_two_inputs_counterexample :
    (onEpochSealed sampleEnv sampleService sampleBlock [3]).1
      ≠ sampleEnv.Of
          [(sampleEnv.Of [sampleEnv.HeadersBytes
              (fun v => if v ∈ [3] then none
                else sampleService.store.lastHeaders sampleService.engine.GetEpoch v)]).Bytes,
           (sampleEnv.DeriveShaCheaters [3]).Bytes] := by
  decide

/-- C3, amended. `onEpochSealed` returns the hash of three inputs in this order:
the 32 zero bytes of the initial value of its result, `Hash(H.Bytes())` for the
last-header collection `H` of the engine's epoch without the cheaters' entries,
and `DeriveSha(C).Bytes()`; and a sealing `applyNewState` that runs through
yields `Hash(stateRoot, that hash)` as application hash. -/
theorem onEpochSealed_hash_composition (env : Env) (s : Service) (block : Block)
    (cheaters : List StakerID) :
    (onEpochSealed env s block cheaters).1
        = env.Of [List.replicate 32 0,
            (env.Of [env.HeadersBytes
              (fun v => if v ∈ cheaters then none
                else s.store.lastHeaders s.engine.GetEpoch v)]).Bytes,
            (env.DeriveShaCheaters cheaters).Bytes]
      ∧ ∀ (evmBlock : EvmBlock) (blockEvents : List Event) (prev block1 : Block)
          (evmBlock1 : EvmBlock) (totalFee : Nat) (receipts : List Receipt) (s1 : Service)
          (root : Hash),
          assembleEvmBlock s block = some (evmBlock, blockEvents) →
          s.store.GetBlock (prevBlockIdx block.Index) = some prev →
          executeEvmTransactions env s block evmBlock prev.Root
            = some (block1, evmBlock1, totalFee, receipts, s1) →
          env.StateCommit prev.Root block1 true cheaters = (root, none) →
          ∃ r, applyNewState env s block true cheaters = some r
            ∧ r.2.2.2.2.1
              = env.Of [root.Bytes,
                  (env.Of [List.replicate 32 0,
                    (env.Of [env.HeadersBytes
                      (fun v => if v ∈ cheaters then none
                        else s.store.lastHeaders s.engine.GetEpoch v)]).Bytes,
                    (env.DeriveShaCheaters cheaters).Bytes]).Bytes] := by
  have hseal : ∀ s' : Service, (onEpochSealed env s' block cheaters).1
      = env.Of [List.replicate 32 0,
          (env.Of [env.HeadersBytes
            (fun v => if v ∈ cheaters then none
              else s'.store.lastHeaders s'.engine.GetEpoch v)]).Bytes,
          (env.DeriveShaCheaters cheaters).Bytes] := by
    intro s'
    simp only [onEpochSealed, Store.GetLastHeaders, foldl_DelLastHeader, Hash.zero]
  refine ⟨hseal s, ?_⟩
  intro evmBlock blockEvents prev block1 evmBlock1 totalFee receipts s1 root h1 h2 h3 h4
  refine ⟨_, applyNewState_eq env s block true cheaters evmBlock blockEvents prev block1
    evmBlock1 totalFee receipts s1 root h1 h2 h3 h4, ?_⟩
  obtain ⟨hst, heng, _, _⟩ :=
    executeEvmTransactions_frame env s block evmBlock prev.Root block1 evmBlock1 totalFee
      receipts s1 h3
  have hseal1 : (onEpochSealed env (recordHooks s1 block1 true cheaters) block1 cheaters).1
      = env.Of [List.replicate 32 0,
          (env.Of [env.HeadersBytes
            (fun v => if v ∈ cheaters then none
              else s.store.lastHeaders s.engine.GetEpoch v)]).Bytes,
          (env.DeriveShaCheaters cheaters).Bytes] := by
    simp only [onEpochSealed, Store.GetLastHeaders, foldl_DelLastHeader, Hash.zero,
      recordHooks, Service.record, hst, heng]
  simp only [if_true, hseal1]

/-- C3, amended, at the sample service sealing the sample block with cheater
list `[3]`. -/
theorem onEpochSealed_hash_composition_witness :
    ∃ r, applyNewState sampleEnv sampleService sampleBlock true [3] = some r
      ∧ r.2.2.2.2.1
        = sampleEnv.Of [[100, 7, 8, 9],
            (sampleEnv.Of [List.replicate 32 0,
              (sampleEnv.Of [sampleEnv.HeadersBytes
                (fun v => if v ∈ [3] then none
                  else sampleService.store.lastHeaders sampleService.engine.GetEpoch v)]).Bytes,
              (sampleEnv.DeriveShaCheaters [3]).Bytes]).Bytes] :=
  (onEpochSealed_hash_composition sampleEnv sampleService sampleBlock [3]).2
    _ _ _ _ _ _ _ _ ⟨[100, 7, 8, 9]⟩ rfl rfl rfl rfl

/-- C4. Application hash rule: when the block assembles, the previous block is
stored, the executor and the state commit succeed, `applyBlock` returns;
`sealEpoch` is true exactly when `decidedFrame` equals the configured epoch
length; the application hash is the committed state root when `sealEpoch` is
false, and `Hash(stateRoot, epochSealHash)` with the result of `onEpochSealed`
second when it is true. -/
theorem applyBlock_application_hash (env : Env) (s : Service) (block : Block)
    (decidedFrame : Frame) (cheaters : List StakerID) (evmBlock : EvmBlock)
    (blockEvents : List Event) (prev block1 : Block) (evmBlock1 : EvmBlock) (totalFee : Nat)
    (receipts : List Receipt) (s1 : Service) (root : Hash)
    (h1 : assembleEvmBlock s block = some (evmBlock, blockEvents))
    (h2 : s.store.GetBlock (prevBlockIdx block.Index) = some prev)
    (h3 : executeEvmTransactions env s block evmBlock prev.Root
      = some (block1, evmBlock1, totalFee, receipts, s1))
    (h4 : env.StateCommit prev.Root block1 (decide (decidedFrame = s.config.EpochLen)) cheaters
      = (root, none)) :
    ∃ (newAppHash : Hash) (sealEpoch : Bool) (s' : Service),
      applyBlock env s block decidedFrame cheaters = some (newAppHash, sealEpoch, s')
        ∧ (sealEpoch = true ↔ decidedFrame = s.config.EpochLen)
        ∧ (sealEpoch = false → newAppHash = root)
        ∧ (sealEpoch = true →
            newAppHash = env.Of [root.Bytes,
              (onEpochSealed env (recordHooks s1 block1 true cheaters) block1 cheaters).1.Bytes]) := by
  have h := applyNewState_eq env s block (decide (decidedFrame = s.config.EpochLen)) cheaters
    evmBlock blockEvents prev block1 evmBlock1 totalFee receipts s1 root h1 h2 h3 h4
  simp only [applyBlock, h]
  refine ⟨_, _, _, rfl, by simp, ?_, ?_⟩
  · intro hf; simp [hf]
  · intro ht; simp [ht]

/-- C4, at the sample service and block: frame 4 seals the epoch, frame 3 does
not. -/
theorem applyBlock_application_hash_witness :
    (∃ (newAppHash : Hash) (sealEpoch : Bool) (s' : Service),
      applyBlock sampleEnv sampleService sampleBlock 4 [3] = some (newAppHash, sealEpoch, s')
        ∧ (sealEpoch = true ↔ (4 : Frame) = sampleService.config.EpochLen)
        ∧ (sealEpoch = false → newAppHash = ⟨[100, 7, 8, 9]⟩)
        ∧ (sealEpoch = true →
            newAppHash = sampleEnv.Of [[100, 7, 8, 9],
              List.replicate 32 0 ++ [11, 12] ++ [3]]))
      ∧ (∃ (newAppHash : Hash) (sealEpoch : Bool) (s' : Service),
      applyBlock sampleEnv sampleService sampleBlock 3 [3] = some (newAppHash, sealEpoch, s')
        ∧ (sealEpoch = true ↔ (3 : Frame) = sampleService.config.EpochLen)
        ∧ (sealEpoch = false → newAppHash = ⟨[100, 7, 8, 9]⟩)
        ∧ (sealEpoch = true →
            newAppHash = sampleEnv.Of [[100, 7, 8, 9],
              List.replicate 32 0 ++ [11, 12] ++ [3]])) :=
  ⟨applyBlock_application_hash sampleEnv sampleService sampleBlock 4 [3]
      _ _ _ _ _ _ _ _ ⟨[100, 7, 8, 9]⟩ rfl rfl rfl rfl,
   applyBlock_application_hash sampleEnv sampleService sampleBlock 3 [3]
      _ _ _ _ _ _ _ _ ⟨[100, 7, 8, 9]⟩ rfl rfl rfl rfl⟩

theorem setEvent_deleteEvent (st : Store) (e : Event) (hnew : st.HasEvent e.Hash = false) :
    (st.SetEvent e).DeleteEvent e.Epoch e.Hash = st := by
  have hnone : st.events e.Hash = none := by
    simpa [Store.HasEvent] using hnew
  cases st with
  | mk events lastEvents heads lastHeaders epochStores blocks blockIndex txPositions receipts =>
    simp only [Store.SetEvent, Store.DeleteEvent, Function.update_idem, Store.mk.injEq,
      and_true]
    simp only at hnone
    rw [← hnone, Function.update_eq_self]

/-- C5. Admission rollback: for an event that is not in the store and passes the
gas-power check, when the engine's `ProcessEvent` returns an error,
`processEvent` returns that error; the store afterwards equals the store
before (events, heads, last events, epoch storage and every other table),
and the only call made on a collaborator is the call of the engine, so no
tracker update and no commit took place. -/
theorem processEvent_engine_error (env : Env) (s : Service) (engine : Consensus) (e : Event)
    (err : Error)
    (hnew : s.store.HasEvent e.Hash = false)
    (hgas : env.gasPowerCheck s e = none)
    (herr : engine.ProcessEvent e = some err) :
    (processEvent env s (some engine) e).1 = some err
      ∧ (processEvent env s (some engine) e).2
          = { s with calls := s.calls ++ [Call.engineProcessEvent e] }
      ∧ (processEvent env s (some engine) e).2.store = s.store
      ∧ (processEvent env s (some engine) e).2.store.HasEvent e.Hash = false
      ∧ (∀ marker immediately,
          Call.commit marker immediately ∈ (processEvent env s (some engine) e).2.calls →
          Call.commit marker immediately ∈ s.calls)
      ∧ (∀ txs,
          Call.collectNotConfirmedTxs txs ∈ (processEvent env s (some engine) e).2.calls →
          Call.collectNotConfirmedTxs txs ∈ s.calls) := by
  have hstate : (processEvent env s (some engine) e).2
      = { s with calls := s.calls ++ [Call.engineProcessEvent e] } := by
    simp only [processEvent, hnew, hgas, herr, Service.record, Bool.false_eq_true, if_false]
    rw [setEvent_deleteEvent s.store e hnew]
  refine ⟨?_, hstate, ?_, ?_, ?_, ?_⟩
  · simp only [processEvent, hnew, hgas, herr, Bool.false_eq_true, if_false]
  · rw [hstate]
  · rw [hstate]; exact hnew
  · intro marker immediately hmem
    rw [hstate] at hmem
    simpa using hmem
  · intro txs hmem
    rw [hstate] at hmem
    simpa using hmem

/-- C5, at the sample service and an event with identity `[66]`, which the sample
engine rejects. -/
theorem processEvent_engine_error_witness :
    (processEvent sampleEnv sampleService (some sampleEngine)
        (sampleEvent 66 1 [] [sampleTx 7])).1 = some "rejected"
      ∧ (processEvent sampleEnv sampleService (some sampleEngine)
          (sampleEvent 66 1 [] [sampleTx 7])).2.store = sampleService.store :=
  let h := processEvent_engine_error sampleEnv sampleService sampleEngine
    (sampleEvent 66 1 [] [sampleTx 7]) "rejected" (by decide) rfl (by decide)
  ⟨h.1, h.2.2.1⟩

/-- C6. Duplicate admission: when the store already holds an event with the
identity of `e`, `processEvent` returns `ErrAlreadyConnectedEvent` and the
service is exactly as before (no store write, no call on the engine, the
tracker or any other collaborator, no commit). After an admission that
returned no error, the store holds `e` under its identity, and admitting `e`
again returns `ErrAlreadyConnectedEvent` and leaves the service as it is. -/
theorem processEvent_duplicate (env : Env) (s : Service) (realEngine : Option Consensus)
    (e : Event) :
    (s.store.HasEvent e.Hash = true →
        processEvent env s realEngine e = (some ErrAlreadyConnectedEvent, s))
      ∧ ((processEvent env s realEngine e).1 = none →
          (processEvent env s realEngine e).2.store.GetEvent e.Hash = some e
            ∧ ∀ (env' : Env) (realEngine' : Option Consensus),
                processEvent env' (processEvent env s realEngine e).2 realEngine' e
                  = (some ErrAlreadyConnectedEvent, (processEvent env s realEngine e).2)) := by
  have hdup : ∀ (env' : Env) (s' : Service) (realEngine' : Option Consensus),
      s'.store.HasEvent e.Hash = true →
      processEvent env' s' realEngine' e = (some ErrAlreadyConnectedEvent, s') := by
    intro env' s' realEngine' h
    simp [processEvent, h]
  have hfold : ∀ (parents : List Hash) (st : Store),
      (parents.foldl (fun st parent => st.DelHead e.Epoch parent) st).events = st.events := by
    intro parents
    induction parents with
    | nil => intro st; rfl
    | cons p rest ih => intro st; rw [List.foldl_cons, ih]; rfl
  have hadmitted : ∀ (s' : Service) (oldEpoch : Epoch), s'.store.events e.Hash = some e →
      (processEventAdmitted env s' realEngine oldEpoch e).2.store.events e.Hash = some e := by
    intro s' oldEpoch hs'
    simp only [processEventAdmitted, Service.record]
    split_ifs <;>
      simp [Store.AddHead, Store.delEpochStore, Store.getEpochStore, hfold, Store.SetLastEvent, hs']
  refine ⟨hdup env s realEngine, ?_⟩
  intro hok
  have hstored : (processEvent env s realEngine e).2.store.GetEvent e.Hash = some e := by
    simp only [Store.GetEvent]
    by_cases hhas : s.store.HasEvent e.Hash = true
    · rw [hdup env s realEngine hhas] at hok; cases hok
    · have hhas' : s.store.HasEvent e.Hash = false := by simpa using hhas
      cases hgas : env.gasPowerCheck s e with
      | some err =>
        simp [processEvent, hhas', hgas] at hok
      | none =>
        cases realEngine with
        | none =>
          simp only [processEvent, hhas', hgas, Bool.false_eq_true, if_false]
          apply hadmitted
          simp [Store.SetEvent]
        | some engine =>
          cases herr : engine.ProcessEvent e with
          | some err => simp [processEvent, hhas', hgas, herr] at hok
          | none =>
            simp only [processEvent, hhas', hgas, herr, Bool.false_eq_true, if_false]
            apply hadmitted
            simp [Store.SetEvent, Service.record]
  refine ⟨hstored, fun env' realEngine' => hdup env' _ realEngine' ?_⟩
  simp only [Store.GetEvent] at hstored
  simp [Store.HasEvent, hstored]

/-- C6, at the sample service: the event with identity `[1]` is stored already;
the event with identity `[5]` is admitted and then refused. -/
theorem processEvent_duplicate_witness :
    processEvent sampleEnv sampleService (some sampleEngine)
        (sampleEvent 1 1 [] [sampleTx 7, sampleTx 8])
      = (some ErrAlreadyConnectedEvent, sampleService)
    ∧ (processEvent sampleEnv
        (processEvent sampleEnv sampleService (some sampleEngine)
          (sampleEvent 5 1 [⟨[1]⟩] [sampleTx 9])).2
        (some sampleEngine) (sampleEvent 5 1 [⟨[1]⟩] [sampleTx 9])).1
      = some ErrAlreadyConnectedEvent :=
  ⟨(processEvent_duplicate sampleEnv sampleService (some sampleEngine)
      (sampleEvent 1 1 [] [sampleTx 7, sampleTx 8])).1 (by decide),
   congrArg Prod.fst
    (((processEvent_duplicate sampleEnv sampleService (some sampleEngine)
      (sampleEvent 5 1 [⟨[1]⟩] [sampleTx 9])).2 (by decide)).2 sampleEnv (some sampleEngine))⟩

/-- C11. Block-membership filter: a header that carries no transactions is never
allowed, whatever the depth and the cap; a header that carries transactions
is refused when the depth exceeds `MaxValidatorEventsInBlock` and allowed
otherwise. -/
theorem isEventAllowedIntoBlock_rule (s : Service) (header : EventHeaderData)
    (seqDepth : EventIdx) :
    (header.NoTransactions = true → isEventAllowedIntoBlock s header seqDepth = false)
      ∧ (header.NoTransactions = false →
          (s.config.MaxValidatorEventsInBlock < seqDepth →
              isEventAllowedIntoBlock s header seqDepth = false)
            ∧ (seqDepth ≤ s.config.MaxValidatorEventsInBlock →
              isEventAllowedIntoBlock s header seqDepth = true)) := by
  refine ⟨fun h => by simp [isEventAllowedIntoBlock, h], fun h => ⟨fun hlt => ?_, fun hle => ?_⟩⟩
  · simp [isEventAllowedIntoBlock, h, hlt]
  · simp [isEventAllowedIntoBlock, h, Nat.not_lt.mpr hle]

/-- C11, at depth 5: an event with transactions is refused with cap 3 and allowed
with cap 5, and an event without transactions is refused with cap 5. -/
theorem isEventAllowedIntoBlock_rule_witness :
    isEventAllowedIntoBlock sampleService (sampleEvent 1 1 [] [sampleTx 7]).toEventHeaderData 5
        = false
      ∧ isEventAllowedIntoBlock
          { sampleService with
            config := { EpochLen := 4, MaxValidatorEventsInBlock := 5, TxIndex := true } }
          (sampleEvent 1 1 [] [sampleTx 7]).toEventHeaderData 5 = true
      ∧ isEventAllowedIntoBlock
          { sampleService with
            config := { EpochLen := 4, MaxValidatorEventsInBlock := 5, TxIndex := true } }
          (sampleEvent 2 1 [] []).toEventHeaderData 5 = false :=
  ⟨((isEventAllowedIntoBlock_rule sampleService
      (sampleEvent 1 1 [] [sampleTx 7]).toEventHeaderData 5).2 (by decide)).1 (by decide),
   ((isEventAllowedIntoBlock_rule
      { sampleService with
        config := { EpochLen := 4, MaxValidatorEventsInBlock := 5, TxIndex := true } }
      (sampleEvent 1 1 [] [sampleTx 7]).toEventHeaderData 5).2 (by decide)).2 (by decide),
   (isEventAllowedIntoBlock_rule
      { sampleService with
        config := { EpochLen := 4, MaxValidatorEventsInBlock := 5, TxIndex := true } }
      (sampleEvent 2 1 [] []).toEventHeaderData 5).1 (by decide)⟩

/-- C12, what the code does: for a header that carries transactions the accepted
depths are exactly the depths `0, ..., MaxValidatorEventsInBlock`, which are
`MaxValidatorEventsInBlock + 1` depths; with cap 3 the four depths 0, 1, 2
and 3 are accepted. -/
theorem isEventAllowedIntoBlock_accepts_cap_plus_one (s : Service) (header : EventHeaderData) :
    (∀ d : EventIdx,
        isEventAllowedIntoBlock s { header with NoTransactions := false } d
          = decide (d ≤ s.config.MaxValidatorEventsInBlock))
      ∧ (List.range 10).filter
          (fun d => isEventAllowedIntoBlock sampleService
            (sampleEvent 1 1 [] [sampleTx 7]).toEventHeaderData d)
        = [0, 1, 2, 3]
      ∧ sampleService.config.MaxValidatorEventsInBlock = 3 := by
  refine ⟨fun d => ?_, by decide, rfl⟩
  by_cases hd : d ≤ s.config.MaxValidatorEventsInBlock
  · simp [isEventAllowedIntoBlock, hd, Nat.not_lt.mpr hd]
  · simp [isEventAllowedIntoBlock, hd, Nat.lt_of_not_le hd]

/-- C15. Bookkeeping of `onEventConfirmed`: when the event of a header that
carries transactions is stored, the call returns; afterwards the creator is
marked true in the participated map and every other entry is as before; for
depth 0 the store is the store after `AddLastHeader(header.Epoch, header)`,
which holds the header under its epoch and creator and leaves every other
entry of the index as before; for another depth the store is unchanged. -/
theorem onEventConfirmed_bookkeeping (s : Service) (header : EventHeaderData)
    (seqDepth : EventIdx)
    (hstored : header.NoTransactions = false →
      ∃ event, s.store.GetEvent header.Hash = some event) :
    ∃ s', onEventConfirmed s header seqDepth = some s'
      ∧ s'.blockParticipated header.Creator = some true
      ∧ (∀ v, v ≠ header.Creator → s'.blockParticipated v = s.blockParticipated v)
      ∧ (seqDepth = 0 →
          s'.store = s.store.AddLastHeader header.Epoch header
            ∧ s'.store.lastHeaders header.Epoch header.Creator = some header
            ∧ (∀ epoch v, (epoch, v) ≠ (header.Epoch, header.Creator) →
                s'.store.lastHeaders epoch v = s.store.lastHeaders epoch v))
      ∧ (seqDepth ≠ 0 → s'.store = s.store) := by
  have hadd : (s.store.AddLastHeader header.Epoch header).lastHeaders header.Epoch
        header.Creator = some header
      ∧ (∀ epoch v, (epoch, v) ≠ (header.Epoch, header.Creator) →
          (s.store.AddLastHeader header.Epoch header).lastHeaders epoch v
            = s.store.lastHeaders epoch v) := by
    refine ⟨by simp [Store.AddLastHeader], fun epoch v hne => ?_⟩
    by_cases he : epoch = header.Epoch
    · subst he
      have hv : v ≠ header.Creator := fun hv => hne (by rw [hv])
      simp [Store.AddLastHeader, Function.update_noteq hv]
    · simp [Store.AddLastHeader, Function.update_noteq he]
  cases hnt : header.NoTransactions with
  | true =>
    by_cases hd : seqDepth = 0
    · subst hd
      refine ⟨_, by simp [onEventConfirmed, hnt]; rfl, by simp, ?_, ?_, ?_⟩
      · intro v hv; simp [Function.update_noteq hv]
      · intro _; exact ⟨rfl, hadd⟩
      · intro h; exact absurd rfl h
    · refine ⟨_, by simp [onEventConfirmed, hnt, hd]; rfl, by simp, ?_, ?_, ?_⟩
      · intro v hv; simp [Function.update_noteq hv]
      · intro h; exact absurd h hd
      · intro _; rfl
  | false =>
    obtain ⟨event, hev⟩ := hstored hnt
    by_cases hd : seqDepth = 0
    · subst hd
      refine ⟨_, by simp [onEventConfirmed, hnt, hev]; rfl, by simp, ?_, ?_, ?_⟩
      · intro v hv; simp [Function.update_noteq hv, Service.record]
      · intro _; exact ⟨rfl, hadd⟩
      · intro h; exact absurd rfl h
    · refine ⟨_, by simp [onEventConfirmed, hnt, hev, hd]; rfl, by simp, ?_, ?_, ?_⟩
      · intro v hv; simp [Function.update_noteq hv, Service.record]
      · intro h; exact absurd h hd
      · intro _; rfl

/-- C15, at the sample service and the header of the stored event `[1]`, at
depth 0. -/
theorem onEventConfirmed_bookkeeping_witness :
    ∃ s', onEventConfirmed sampleService
        (sampleEvent 1 1 [] [sampleTx 7, sampleTx 8]).toEventHeaderData 0 = some s'
      ∧ s'.blockParticipated 1 = some true
      ∧ s'.store.lastHeaders 1 1
        = some (sampleEvent 1 1 [] [sampleTx 7, sampleTx 8]).toEventHeaderData :=
  let ⟨s', h1, h2, _, h4, _⟩ := onEventConfirmed_bookkeeping sampleService
    (sampleEvent 1 1 [] [sampleTx 7, sampleTx 8]).toEventHeaderData 0
    (fun _ => ⟨sampleEvent 1 1 [] [sampleTx 7, sampleTx 8], by decide⟩)
  ⟨s', h1, h2, (h4 rfl).2.1⟩

/-- C16. Cheater exclusion at epoch seal: the hash that `onEpochSealed` returns is
computed from the bytes of the collection `sealedLastHeaders`; that collection
has no entry for a validator of the cheater list, and for every other
validator it has the entry that the last-header index held for the engine's
epoch before the call. -/
theorem onEpochSealed_excludes_cheaters (env : Env) (s : Service) (block : Block)
    (cheaters : List StakerID) :
    (onEpochSealed env s block cheaters).1
        = env.Of [Hash.zero.Bytes, (env.Of [env.HeadersBytes (sealedLastHeaders s cheaters)]).Bytes,
            (env.DeriveShaCheaters cheaters).Bytes]
      ∧ (∀ v, v ∈ cheaters → sealedLastHeaders s cheaters v = none)
      ∧ (∀ v, v ∉ cheaters →
          sealedLastHeaders s cheaters v = s.store.lastHeaders s.engine.GetEpoch v) := by
  refine ⟨rfl, fun v hv => ?_, fun v hv => ?_⟩
  · simp [sealedLastHeaders, Store.GetLastHeaders, foldl_DelLastHeader, hv]
  · simp [sealedLastHeaders, Store.GetLastHeaders, foldl_DelLastHeader, hv]

theorem assembleLoop_eq (st : Store) :
    ∀ (ids : List Hash) (txs : List Transaction) (blockEvents : List Event),
      (∀ id ∈ ids, ∃ e, st.GetEvent id = some e) →
      assembleLoop st ids txs blockEvents
        = some (txs ++ ((ids.filterMap st.GetEvent).map (fun e => e.Transactions)).flatten,
                blockEvents ++ ids.filterMap st.GetEvent) := by
  intro ids
  induction ids with
  | nil => intro txs blockEvents _; simp [assembleLoop]
  | cons id rest ih =>
    intro txs blockEvents h
    obtain ⟨e, he⟩ := h id (List.mem_cons_self _ _)
    simp only [assembleLoop, he]
    rw [ih _ _ (fun id' hid' => h id' (List.mem_cons_of_mem _ hid'))]
    simp [List.filterMap_cons, he]

/-- C18. Block assembly order: for a block with an empty skip list whose member
identifiers are all in the store, `assembleEvmBlock` returns as block events
the stored events in the order of `block.Events`, one per identifier, and as
transactions the concatenation in that order of all transactions of these
events, duplicates kept; the length is the sum of the events' transaction
counts. -/
theorem assembleEvmBlock_order (s : Service) (block : Block)
    (hskip : block.SkippedTxs = [])
    (hstored : ∀ id ∈ block.Events, ∃ e, s.store.GetEvent id = some e) :
    ∃ (evmBlock : EvmBlock) (blockEvents : List Event),
      assembleEvmBlock s block = some (evmBlock, blockEvents)
        ∧ block.Events.map s.store.GetEvent = blockEvents.map some
        ∧ evmBlock.Transactions = (blockEvents.map (fun e => e.Transactions)).flatten
        ∧ evmBlock.Transactions.length
            = (blockEvents.map (fun e => e.Transactions.length)).sum
        ∧ evmBlock.EvmHeader = ToEvmHeader block := by
  refine ⟨_, _, by
    simp only [assembleEvmBlock, hskip, assembleLoop_eq s.store block.Events [] [] hstored]
    rfl, ?_, by simp, ?_, rfl⟩
  · simp only [List.nil_append]
    have : ∀ ids : List Hash, (∀ id ∈ ids, ∃ e, s.store.GetEvent id = some e) →
        ids.map s.store.GetEvent = (ids.filterMap s.store.GetEvent).map some := by
      intro ids
      induction ids with
      | nil => intro _; rfl
      | cons id rest ih =>
        intro h
        obtain ⟨e, he⟩ := h id (List.mem_cons_self _ _)
        simp [List.filterMap_cons, he, ih (fun id' hid' => h id' (List.mem_cons_of_mem _ hid'))]
    exact this block.Events hstored
  · simp [List.length_flatten, List.map_map, Function.comp_def]

/-- C18, at the sample block, whose two events carry two transactions each. -/
theorem assembleEvmBlock_order_witness :
    ∃ (evmBlock : EvmBlock) (blockEvents : List Event),
      assembleEvmBlock sampleService sampleBlock = some (evmBlock, blockEvents)
        ∧ blockEvents
          = [sampleEvent 1 1 [] [sampleTx 7, sampleTx 8],
             sampleEvent 2 2 [⟨[1]⟩] [sampleTx 8, sampleTx 9]]
        ∧ evmBlock.Transactions = [sampleTx 7, sampleTx 8, sampleTx 8, sampleTx 9] :=
  let ⟨evmBlock, blockEvents, h1, h2, h3, _⟩ := assembleEvmBlock_order sampleService sampleBlock
    rfl (by
      intro id hid
      simp only [sampleBlock, List.mem_cons, List.mem_singleton, List.not_mem_nil, or_false] at hid
      rcases hid with rfl | rfl
      · exact ⟨_, rfl⟩
      · exact ⟨_, rfl⟩)
  have hev : blockEvents
      = [sampleEvent 1 1 [] [sampleTx 7, sampleTx 8],
         sampleEvent 2 2 [⟨[1]⟩] [sampleTx 8, sampleTx 9]] := by
    have h : [sampleEvent 1 1 [] [sampleTx 7, sampleTx 8],
        sampleEvent 2 2 [⟨[1]⟩] [sampleTx 8, sampleTx 9]].map some = blockEvents.map some := by
      rw [← h2]; decide
    exact (List.map_injective_iff.mpr (Option.some_injective _) h).symm
  ⟨evmBlock, blockEvents, h1, hev, by rw [h3, hev]; decide⟩

theorem foldl_DelHead (epoch : Epoch) :
    ∀ (parents : List Hash) (st : Store),
      (parents.foldl (fun st parent => st.DelHead epoch parent) st).heads epoch
          = st.heads epoch \ parents.toFinset
        ∧ ∀ epoch', epoch' ≠ epoch →
            (parents.foldl (fun st parent => st.DelHead epoch parent) st).heads epoch'
              = st.heads epoch' := by
  intro parents
  induction parents with
  | nil => intro st; simp
  | cons p rest ih =>
    intro st
    rw [List.foldl_cons]
    obtain ⟨h1, h2⟩ := ih (st.DelHead epoch p)
    refine ⟨?_, fun epoch' hne => ?_⟩
    · rw [h1]
      ext x
      simp only [Store.DelHead, Function.update_same, Finset.mem_sdiff, Finset.mem_erase,
        List.toFinset_cons, Finset.mem_insert, List.mem_toFinset]
      tauto
    · rw [h2 epoch' hne]
      simp [Store.DelHead, Function.update_noteq hne]

theorem processEventAdmitted_heads (env : Env) (s : Service) (realEngine : Option Consensus)
    (oldEpoch : Epoch) (e : Event) :
    (processEventAdmitted env s realEngine oldEpoch e).2.store.heads e.Epoch
        = insert e.Hash (s.store.heads e.Epoch \ e.Parents.toFinset)
      ∧ ∀ epoch, epoch ≠ e.Epoch →
          (processEventAdmitted env s realEngine oldEpoch e).2.store.heads epoch
            = s.store.heads epoch := by
  have hfold := foldl_DelHead e.Epoch e.Parents (s.store.SetLastEvent e.Epoch e.Creator e.Hash)
  have hlast : (s.store.SetLastEvent e.Epoch e.Creator e.Hash).heads = s.store.heads := rfl
  rw [hlast] at hfold
  refine ⟨?_, fun epoch hne => ?_⟩
  · simp only [processEventAdmitted, Service.record]
    split_ifs <;>
      simp [Store.AddHead, Store.delEpochStore, Store.getEpochStore, hfold.1]
  · simp only [processEventAdmitted, Service.record]
    split_ifs <;>
      simp [Store.AddHead, Store.delEpochStore, Store.getEpochStore, hfold.2 epoch hne,
        Function.update_noteq hne]

/-- C13. Heads update on admission: after a `processEvent` that returned no error
and left the engine in the epoch of the event, the heads of that epoch are
the previous heads without the parents of the event, with the identity of
the event added, and the heads of every other epoch are as before. -/
theorem processEvent_heads (env : Env) (s : Service) (realEngine : Option Consensus) (e : Event)
    (hok : (processEvent env s realEngine e).1 = none)
    (_hsame : ∀ engine, realEngine = some engine → engine.GetEpochAfter e = e.Epoch) :
    (processEvent env s realEngine e).2.store.heads e.Epoch
        = insert e.Hash (s.store.heads e.Epoch \ e.Parents.toFinset)
      ∧ ∀ epoch, epoch ≠ e.Epoch →
          (processEvent env s realEngine e).2.store.heads epoch = s.store.heads epoch := by
  by_cases hhas : s.store.HasEvent e.Hash = true
  · simp [processEvent, hhas] at hok
  · have hhas' : s.store.HasEvent e.Hash = false := by simpa using hhas
    cases hgas : env.gasPowerCheck s e with
    | some err => simp [processEvent, hhas', hgas] at hok
    | none =>
      cases realEngine with
      | none =>
        simp only [processEvent, hhas', hgas, Bool.false_eq_true, if_false]
        exact processEventAdmitted_heads env _ none e.Epoch e
      | some engine =>
        cases herr : engine.ProcessEvent e with
        | some err => simp [processEvent, hhas', hgas, herr] at hok
        | none =>
          simp only [processEvent, hhas', hgas, herr, Bool.false_eq_true, if_false]
          exact processEventAdmitted_heads env _ (some engine) e.Epoch e

/-- C13, at the sample service, whose epoch 1 has no heads: after admitting the
event `[5]` and then the event `[6]` with parent `[5]`, the heads of epoch 1
are `{[6]}`. -/
theorem processEvent_heads_witness :
    (processEvent sampleEnv
        (processEvent sampleEnv sampleService (some sampleEngine)
          (sampleEvent 5 1 [] [sampleTx 7, sampleTx 8])).2
        (some sampleEngine) (sampleEvent 6 2 [⟨[5]⟩] [])).2.store.heads 1
      = {⟨[6]⟩} :=
  ((processEvent_heads sampleEnv
      (processEvent sampleEnv sampleService (some sampleEngine)
        (sampleEvent 5 1 [] [sampleTx 7, sampleTx 8])).2
      (some sampleEngine) (sampleEvent 6 2 [⟨[5]⟩] []) (by decide)
      (fun engine h => by cases h; rfl)).1).trans (by decide)

theorem foldl_Set_absent (conv : Nat → Stake) (id : StakerID) :
    ∀ (vals : List SfcStakerAndID) (builder : Validators),
      (∀ it ∈ vals, it.StakerID ≠ id) →
      vals.foldl (fun builder it => builder.Set it.StakerID (conv it.Staker.CalcTotalStake))
          builder id
        = builder id := by
  intro vals
  induction vals with
  | nil => intro builder _; rfl
  | cons x rest ih =>
    intro builder h
    rw [List.foldl_cons, ih _ (fun it hit => h it (List.mem_cons_of_mem _ hit))]
    have hne : id ≠ x.StakerID := fun heq => h x (List.mem_cons_self _ _) heq.symm
    unfold Validators.Set
    split_ifs <;> simp [Function.update_noteq hne]

theorem foldl_Set_present (conv : Nat → Stake) :
    ∀ (vals : List SfcStakerAndID) (builder : Validators) (it : SfcStakerAndID),
      (vals.map (fun it => it.StakerID)).Nodup → it ∈ vals →
      vals.foldl (fun builder it => builder.Set it.StakerID (conv it.Staker.CalcTotalStake))
          builder it.StakerID
        = if conv it.Staker.CalcTotalStake = 0 then none
          else some (conv it.Staker.CalcTotalStake) := by
  intro vals
  induction vals with
  | nil => intro builder it _ hit; cases hit
  | cons x rest ih =>
    intro builder it hn hit
    rw [List.map_cons, List.nodup_cons] at hn
    rw [List.foldl_cons]
    rcases List.mem_cons.mp hit with rfl | hrest
    · rw [foldl_Set_absent conv it.StakerID rest _ (fun it' hit' heq =>
        hn.1 (List.mem_map.mpr ⟨it', hit', heq⟩))]
      unfold Validators.Set
      split_ifs <;> simp
    · exact ih _ it hn.2 hrest

/-- C14, as stated, fails. With a conversion that rounds down, `b / 10^15`, the
stakers A = 1 with stake 100, B = 2 with stake 50 and C = 3 with stake 0 give
no validator, though A has a nonzero total stake. With an identifier stored
twice, the result depends on the order of enumeration. -/
theorem selectValidatorsGroup_nonzero_stake_counterexample :
    ¬ ((selectValidatorsGroup
          { GetEpochValidators := fun _ => [⟨1, ⟨100, 0⟩⟩, ⟨2, ⟨30, 20⟩⟩, ⟨3, ⟨0, 0⟩⟩],
            BalanceToStake := fun b => b / 10 ^ 15 } sampleService 1 2 1).isSome = true
        ↔ ∃ it ∈ [(⟨1, ⟨100, 0⟩⟩ : SfcStakerAndID), ⟨2, ⟨30, 20⟩⟩, ⟨3, ⟨0, 0⟩⟩],
            it.StakerID = 1 ∧ it.Staker.CalcTotalStake ≠ 0)
      ∧ selectValidatorsGroup
          { GetEpochValidators := fun _ => [⟨1, ⟨100, 0⟩⟩, ⟨1, ⟨0, 0⟩⟩],
            BalanceToStake := id } sampleService 1 2 1
        ≠ selectValidatorsGroup
          { GetEpochValidators := fun _ => [⟨1, ⟨0, 0⟩⟩, ⟨1, ⟨100, 0⟩⟩],
            BalanceToStake := id } sampleService 1 2 1 := by
  decide

/-- C14, amended. Validator-set build: for stakers stored under distinct
identifiers, `selectValidatorsGroup` returns the set whose members are
exactly the stakers whose converted total stake `BalanceToStake(total)` is
nonzero, each weighted by that converted stake; a staker whose converted stake
is zero is excluded, so one with zero total stake is excluded when the
conversion sends zero to zero, and the weights are monotonic in the stake
when the conversion is; the result is the same for every old epoch and for
every order of enumeration. -/
theorem selectValidatorsGroup_build (staking : Staking) (s : Service) (oldEpoch newEpoch : Epoch)
    (hids : ((staking.GetEpochValidators newEpoch).map (fun it => it.StakerID)).Nodup) :
    (∀ id w, selectValidatorsGroup staking s oldEpoch newEpoch id = some w ↔
        ∃ it ∈ staking.GetEpochValidators newEpoch,
          it.StakerID = id ∧ staking.BalanceToStake it.Staker.CalcTotalStake = w ∧ w ≠ 0)
      ∧ (∀ it ∈ staking.GetEpochValidators newEpoch,
          staking.BalanceToStake it.Staker.CalcTotalStake = 0 →
          selectValidatorsGroup staking s oldEpoch newEpoch it.StakerID = none)
      ∧ (staking.BalanceToStake 0 = 0 →
          ∀ it ∈ staking.GetEpochValidators newEpoch, it.Staker.CalcTotalStake = 0 →
            selectValidatorsGroup staking s oldEpoch newEpoch it.StakerID = none)
      ∧ (Monotone staking.BalanceToStake →
          ∀ it₁ ∈ staking.GetEpochValidators newEpoch,
          ∀ it₂ ∈ staking.GetEpochValidators newEpoch,
          ∀ w₁ w₂, it₁.Staker.CalcTotalStake ≤ it₂.Staker.CalcTotalStake →
            selectValidatorsGroup staking s oldEpoch newEpoch it₁.StakerID = some w₁ →
            selectValidatorsGroup staking s oldEpoch newEpoch it₂.StakerID = some w₂ →
            w₁ ≤ w₂)
      ∧ (∀ (s' : Service) (oldEpoch' : Epoch),
          selectValidatorsGroup staking s' oldEpoch' newEpoch
            = selectValidatorsGroup staking s oldEpoch newEpoch)
      ∧ (∀ staking' : Staking,
          staking'.BalanceToStake = staking.BalanceToStake →
          (staking'.GetEpochValidators newEpoch).Perm (staking.GetEpochValidators newEpoch) →
          selectValidatorsGroup staking' s oldEpoch newEpoch
            = selectValidatorsGroup staking s oldEpoch newEpoch) := by
  have hpresent : ∀ (st : Staking),
      ((st.GetEpochValidators newEpoch).map (fun it => it.StakerID)).Nodup →
      ∀ it ∈ st.GetEpochValidators newEpoch,
        selectValidatorsGroup st s oldEpoch newEpoch it.StakerID
          = if st.BalanceToStake it.Staker.CalcTotalStake = 0 then none
            else some (st.BalanceToStake it.Staker.CalcTotalStake) := by
    intro st hn it hit
    exact foldl_Set_present st.BalanceToStake _ NewBuilder it hn hit
  have habsent : ∀ (st : Staking) (id : StakerID),
      (∀ it ∈ st.GetEpochValidators newEpoch, it.StakerID ≠ id) →
      selectValidatorsGroup st s oldEpoch newEpoch id = none := by
    intro st id h
    exact foldl_Set_absent st.BalanceToStake id _ NewBuilder h
  have hnone : ∀ it ∈ staking.GetEpochValidators newEpoch,
      staking.BalanceToStake it.Staker.CalcTotalStake = 0 →
      selectValidatorsGroup staking s oldEpoch newEpoch it.StakerID = none := by
    intro it hit h0
    rw [hpresent staking hids it hit, if_pos h0]
  refine ⟨fun id w => ⟨fun hsm => ?_, ?_⟩, hnone, ?_, ?_, fun _ _ => rfl, ?_⟩
  · by_cases hex : ∃ it ∈ staking.GetEpochValidators newEpoch, it.StakerID = id
    · obtain ⟨it, hit, hid⟩ := hex
      subst hid
      rw [hpresent staking hids it hit] at hsm
      split_ifs at hsm with h0
      simp only [Option.some.injEq] at hsm
      exact ⟨it, hit, rfl, hsm, fun hw => h0 (hsm.trans hw)⟩
    · rw [habsent staking id (fun it hit hid => hex ⟨it, hit, hid⟩)] at hsm
      cases hsm
  · rintro ⟨it, hit, rfl, rfl, hne⟩
    rw [hpresent staking hids it hit, if_neg hne]
  · intro hz it hit h0
    exact hnone it hit (by rw [h0]; exact hz)
  · intro hmono it₁ hit₁ it₂ hit₂ w₁ w₂ hle h₁ h₂
    rw [hpresent staking hids it₁ hit₁] at h₁
    rw [hpresent staking hids it₂ hit₂] at h₂
    split_ifs at h₁ h₂
    cases h₁; cases h₂
    exact hmono hle
  · intro staking' hconv hperm
    have hids' : ((staking'.GetEpochValidators newEpoch).map (fun it => it.StakerID)).Nodup :=
      (hperm.map _).nodup_iff.mpr hids
    funext id
    by_cases hex : ∃ it ∈ staking.GetEpochValidators newEpoch, it.StakerID = id
    · obtain ⟨it, hit, rfl⟩ := hex
      rw [hpresent staking hids it hit, hpresent staking' hids' it (hperm.mem_iff.mpr hit), hconv]
    · rw [habsent staking id (fun it hit hid => hex ⟨it, hit, hid⟩),
        habsent staking' id (fun it hit hid => hex ⟨it, hperm.mem_iff.mp hit, hid⟩)]

/-- C14, amended, at the stakers A = 1 with stake 100, B = 2 with stake 50 and
C = 3 with stake 0: with the identity as conversion A and B are validators
with weights 100 and 50 and C is not. -/
theorem selectValidatorsGroup_build_witness :
    selectValidatorsGroup
        { GetEpochValidators := fun _ => [⟨1, ⟨100, 0⟩⟩, ⟨2, ⟨30, 20⟩⟩, ⟨3, ⟨0, 0⟩⟩],
          BalanceToStake := id } sampleService 1 2 1 = some 100
      ∧ selectValidatorsGroup
        { GetEpochValidators := fun _ => [⟨1, ⟨100, 0⟩⟩, ⟨2, ⟨30, 20⟩⟩, ⟨3, ⟨0, 0⟩⟩],
          BalanceToStake := id } sampleService 1 2 2 = some 50
      ∧ selectValidatorsGroup
        { GetEpochValidators := fun _ => [⟨1, ⟨100, 0⟩⟩, ⟨2, ⟨30, 20⟩⟩, ⟨3, ⟨0, 0⟩⟩],
          BalanceToStake := id } sampleService 1 2 3 = none :=
  let h := selectValidatorsGroup_build
    { GetEpochValidators := fun _ => [⟨1, ⟨100, 0⟩⟩, ⟨2, ⟨30, 20⟩⟩, ⟨3, ⟨0, 0⟩⟩],
      BalanceToStake := id } sampleService 1 2 (by decide)
  ⟨(h.1 1 100).mpr ⟨⟨1, ⟨100, 0⟩⟩, by decide, rfl, rfl, by decide⟩,
   (h.1 2 50).mpr ⟨⟨2, ⟨30, 20⟩⟩, by decide, rfl, rfl, by decide⟩,
   h.2.1 ⟨3, ⟨0, 0⟩⟩ (by decide) rfl⟩

theorem filterAhead_sublist {α : Type} (txs : List α) :
    ∀ (ahead : List Nat) (i : Nat), (filterAhead ahead i txs).Sublist txs := by
  induction txs with
  | nil => intro ahead i; cases ahead <;> simp [filterAhead]
  | cons tx rest ih =>
    intro ahead i
    cases ahead with
    | nil => simp only [filterAhead]; exact (ih [] (i + 1)).cons₂ tx
    | cons k t =>
      simp only [filterAhead]
      split_ifs
      · exact (ih t (i + 1)).cons tx
      · exact (ih (k :: t) (i + 1)).cons₂ tx

theorem removedPositions_nil (i n : Nat) : removedPositions [] i n = [] := by
  cases n <;> rfl

theorem removedPositions_bounds :
    ∀ (n : Nat) (ahead : List Nat) (i : Nat),
      ∀ k ∈ removedPositions ahead i n, i ≤ k ∧ k < i + n := by
  intro n
  induction n with
  | zero => intro ahead i k hk; simp [removedPositions] at hk
  | succ n ih =>
    intro ahead i k hk
    cases ahead with
    | nil => simp [removedPositions] at hk
    | cons a t =>
      simp only [removedPositions] at hk
      split_ifs at hk with hai
      · rcases List.mem_cons.mp hk with rfl | hk'
        · omega
        · have := ih t (i + 1) k hk'; omega
      · have := ih (a :: t) (i + 1) k hk; omega

theorem removedPositions_sublist :
    ∀ (n : Nat) (ahead : List Nat) (i : Nat),
      (removedPositions ahead i n).Sublist ahead
        ∧ (removedPositions ahead i n).Pairwise (· < ·) := by
  intro n
  induction n with
  | zero => intro ahead i; simp [removedPositions]
  | succ n ih =>
    intro ahead i
    cases ahead with
    | nil => simp [removedPositions]
    | cons a t =>
      simp only [removedPositions]
      split_ifs with hai
      · subst hai
        refine ⟨(ih t (a + 1)).1.cons₂ a, List.pairwise_cons.mpr ⟨fun k hk => ?_, (ih t (a + 1)).2⟩⟩
        have := removedPositions_bounds n t (a + 1) k hk
        omega
      · exact ih (a :: t) (i + 1)

theorem filterAhead_removed {α : Type} (txs : List α) :
    ∀ (ahead : List Nat) (i : Nat),
      filterAhead ahead i txs
          = ((txs.enumFrom i).filter
              (fun p => decide (p.1 ∉ removedPositions ahead i txs.length))).map Prod.snd
        ∧ (filterAhead ahead i txs).length + (removedPositions ahead i txs.length).length
          = txs.length := by
  induction txs with
  | nil => intro ahead i; cases ahead <;> simp [filterAhead, removedPositions]
  | cons tx rest ih =>
    intro ahead i
    cases ahead with
    | nil =>
      have h := ih [] (i + 1)
      rw [removedPositions_nil] at h
      simp only [filterAhead, removedPositions_nil, List.enumFrom_cons, List.not_mem_nil,
        not_false_eq_true, decide_True, List.filter_cons_of_pos, List.map_cons,
        List.length_cons, List.length_nil, Nat.add_zero]
      refine ⟨?_, by simpa using h.2⟩
      rw [h.1]; simp
    | cons k t =>
      by_cases hki : k = i
      · subst hki
        have h := ih t (k + 1)
        simp only [filterAhead, removedPositions, if_true, List.enumFrom_cons, List.length_cons]
        refine ⟨?_, by omega⟩
        rw [h.1, List.filter_cons_of_neg (by simp)]
        congr 1
        apply List.filter_congr
        intro p hp
        have hle := List.le_fst_of_mem_enumFrom hp
        have hne : p.1 ≠ k := by omega
        simp [hne]
      · have h := ih (k :: t) (i + 1)
        have hnot : i ∉ removedPositions (k :: t) (i + 1) rest.length := by
          intro hmem
          have := removedPositions_bounds rest.length (k :: t) (i + 1) i hmem
          omega
        simp only [filterAhead, removedPositions, hki, if_false, List.enumFrom_cons,
          List.length_cons]
        refine ⟨?_, by omega⟩
        rw [List.filter_cons_of_pos (by simpa using hnot), List.map_cons, h.1]

/-- C19, as stated, fails: with the skip list `[1, 1]`, which is not strictly
increasing, and three transactions, position 1 is removed, so no listed
position that is in range is left in the result. -/
theorem filterSkippedTxs_repeated_skip_counterexample :
    ¬ [1, 1].Pairwise (fun a b : Nat => a < b)
      ∧ ∀ k ∈ [1, 1], k < 3 →
        [sampleTx 0, sampleTx 1, sampleTx 2].getD k (sampleTx 0)
          ∉ (filterSkippedTxs
              { Index := 1, Atropos := Hash.zero, Events := [], SkippedTxs := [1, 1],
                GasUsed := 0, TxHash := Hash.zero, Root := Hash.zero }
              { EvmHeader := ToEvmHeader sampleBlock,
                Transactions := [sampleTx 0, sampleTx 1, sampleTx 2] }).Transactions := by
  decide

theorem removedPositions_eq_honoredSkips :
    ∀ (m : Nat) (skipped : List Nat) (i : Nat),
      removedPositions skipped i m = honoredSkips (i + m) skipped i := by
  intro m
  induction m with
  | zero =>
    intro skipped i
    cases skipped with
    | nil => rfl
    | cons k t =>
      have hfalse : ¬ (i ≤ k ∧ k < i + 0) := by omega
      simp [removedPositions, honoredSkips, hfalse]
  | succ m ih =>
    intro skipped i
    cases skipped with
    | nil => rfl
    | cons k t =>
      by_cases hki : k = i
      · subst hki
        have htrue : k ≤ k ∧ k < k + (m + 1) := by omega
        have harg : k + (m + 1) = k + 1 + m := by omega
        simp only [removedPositions, honoredSkips, if_true, htrue, and_self]
        rw [ih t (k + 1), harg]
      · have harg : i + (m + 1) = i + 1 + m := by omega
        simp only [removedPositions, hki, if_false]
        rw [ih (k :: t) (i + 1), harg]
        simp only [honoredSkips]
        by_cases hc : i + 1 ≤ k ∧ k < i + 1 + m
        · have hc' : i ≤ k ∧ k < i + 1 + m := by omega
          simp [hc, hc']
        · have hc' : ¬ (i ≤ k ∧ k < i + 1 + m) := by omega
          simp [hc, hc']

theorem honoredSkips_split (n : Nat) :
    ∀ (skipped : List Nat) (lo : Nat),
      ∃ rest, skipped = honoredSkips n skipped lo ++ rest
        ∧ ∀ k rest', rest = k :: rest' →
            n ≤ k ∨ k < lo ∨ ∃ q ∈ honoredSkips n skipped lo, k ≤ q := by
  intro skipped
  induction skipped with
  | nil => intro lo; exact ⟨[], by simp [honoredSkips]⟩
  | cons a t ih =>
    intro lo
    by_cases hc : lo ≤ a ∧ a < n
    · obtain ⟨rest, h1, h2⟩ := ih (a + 1)
      refine ⟨rest, ?_, ?_⟩
      · simp only [honoredSkips, hc, and_self, if_true, List.cons_append]
        rw [← h1]
      · intro k rest' hrest
        simp only [honoredSkips, hc, and_self, if_true]
        rcases h2 k rest' hrest with h | h | ⟨q, hq, hkq⟩
        · exact Or.inl h
        · exact Or.inr (Or.inr ⟨a, List.mem_cons_self _ _, by omega⟩)
        · exact Or.inr (Or.inr ⟨q, List.mem_cons_of_mem _ hq, hkq⟩)
    · refine ⟨a :: t, by simp [honoredSkips, hc], ?_⟩
      intro k rest' hrest
      simp only [List.cons.injEq] at hrest
      obtain ⟨rfl, _⟩ := hrest
      rcases Nat.lt_or_ge a lo with h | h
      · exact Or.inr (Or.inl h)
      · exact Or.inl (by omega)

/-- C19, amended. For every transaction list and every skip list whatsoever, the
result of `filterSkippedTxs` is a sublist of the list, of length at least
`len(L) - len(S)`. The positions dropped are `removedPositions`, which is the
longest run at the start of the skip list that is strictly increasing and in
range: a position is removed only if it is listed, and every position
outside that run stays. A skip list that is not strictly increasing drops
fewer positions than it lists; when its in-range entries are distinct and not
strictly increasing, one of its listed positions stays in the result. -/
theorem filterSkippedTxs_arbitrary (block : Block) (evmBlock : EvmBlock) :
    (filterSkippedTxs block evmBlock).Transactions.Sublist evmBlock.Transactions
      ∧ evmBlock.Transactions.length - block.SkippedTxs.length
          ≤ (filterSkippedTxs block evmBlock).Transactions.length
      ∧ (filterSkippedTxs block evmBlock).Transactions
          = ((evmBlock.Transactions.enumFrom 0).filter
              (fun p => decide
                (p.1 ∉ removedPositions block.SkippedTxs 0 evmBlock.Transactions.length))).map
              Prod.snd
      ∧ (removedPositions block.SkippedTxs 0 evmBlock.Transactions.length).Sublist
          block.SkippedTxs
      ∧ (∀ k ∈ removedPositions block.SkippedTxs 0 evmBlock.Transactions.length,
          k ∈ block.SkippedTxs ∧ k < evmBlock.Transactions.length)
      ∧ (¬ block.SkippedTxs.Pairwise (· < ·) →
          evmBlock.Transactions.length
            < (filterSkippedTxs block evmBlock).Transactions.length + block.SkippedTxs.length)
      ∧ (removedPositions block.SkippedTxs 0 evmBlock.Transactions.length
            = honoredSkips evmBlock.Transactions.length block.SkippedTxs 0
          ∧ (removedPositions block.SkippedTxs 0 evmBlock.Transactions.length).Pairwise
              (· < ·)
          ∧ ∃ rest, block.SkippedTxs
              = honoredSkips evmBlock.Transactions.length block.SkippedTxs 0 ++ rest
            ∧ ∀ k rest', rest = k :: rest' →
                evmBlock.Transactions.length ≤ k
                  ∨ ∃ q ∈ honoredSkips evmBlock.Transactions.length block.SkippedTxs 0, k ≤ q)
      ∧ (∀ k, ∀ hk : k < evmBlock.Transactions.length,
          k ∉ removedPositions block.SkippedTxs 0 evmBlock.Transactions.length →
          evmBlock.Transactions.get ⟨k, hk⟩ ∈ (filterSkippedTxs block evmBlock).Transactions)
      ∧ (¬ (block.SkippedTxs.filter
              (fun k => decide (k < evmBlock.Transactions.length))).Pairwise (· < ·) →
          (block.SkippedTxs.filter
              (fun k => decide (k < evmBlock.Transactions.length))).Nodup →
          ∃ k, ∃ hk : k < evmBlock.Transactions.length, k ∈ block.SkippedTxs
            ∧ k ∉ removedPositions block.SkippedTxs 0 evmBlock.Transactions.length
            ∧ evmBlock.Transactions.get ⟨k, hk⟩
                ∈ (filterSkippedTxs block evmBlock).Transactions) := by
  have hloop : (filterSkippedTxs block evmBlock).Transactions
      = filterAhead block.SkippedTxs 0 evmBlock.Transactions := by
    simp [filterSkippedTxs, filterLoop_eq_filterAhead]
  have hrem := filterAhead_removed evmBlock.Transactions block.SkippedTxs 0
  have hsub := removedPositions_sublist evmBlock.Transactions.length block.SkippedTxs 0
  have hbound := removedPositions_bounds evmBlock.Transactions.length block.SkippedTxs 0
  have hshort : ¬ block.SkippedTxs.Pairwise (· < ·) →
      (removedPositions block.SkippedTxs 0 evmBlock.Transactions.length).length
        < block.SkippedTxs.length := by
    intro hns
    rcases Nat.lt_or_ge (removedPositions block.SkippedTxs 0 evmBlock.Transactions.length).length
      block.SkippedTxs.length with hlt | hge
    · exact hlt
    · have heq := hsub.1.eq_of_length (Nat.le_antisymm hsub.1.length_le hge)
      exact absurd (heq ▸ hsub.2) hns
  have hlen := hsub.1.length_le
  have hstays : ∀ k, ∀ hk : k < evmBlock.Transactions.length,
      k ∉ removedPositions block.SkippedTxs 0 evmBlock.Transactions.length →
      evmBlock.Transactions.get ⟨k, hk⟩ ∈ (filterSkippedTxs block evmBlock).Transactions := by
    intro k hk hkR
    rw [hloop, hrem.1, List.mem_map]
    refine ⟨(k, evmBlock.Transactions.get ⟨k, hk⟩), ?_, rfl⟩
    rw [List.mem_filter]
    refine ⟨?_, by simpa using hkR⟩
    rw [List.mk_mem_enumFrom_iff_le_and_getElem?_sub]
    refine ⟨Nat.zero_le _, ?_⟩
    simp [List.getElem?_eq_getElem hk]
  have hrun : removedPositions block.SkippedTxs 0 evmBlock.Transactions.length
      = honoredSkips evmBlock.Transactions.length block.SkippedTxs 0 := by
    have := removedPositions_eq_honoredSkips evmBlock.Transactions.length block.SkippedTxs 0
    simpa using this
  refine ⟨by rw [hloop]; exact filterAhead_sublist _ _ _, by rw [hloop]; omega,
    by rw [hloop]; exact hrem.1, hsub.1, fun k hk => ⟨hsub.1.subset hk, ?_⟩,
    fun hns => by have := hshort hns; rw [hloop]; omega, ⟨hrun, hsub.2, ?_⟩, hstays, ?_⟩
  · have := hbound k hk
    omega
  · obtain ⟨rest, h1, h2⟩ := honoredSkips_split evmBlock.Transactions.length block.SkippedTxs 0
    refine ⟨rest, h1, fun k rest' hrest => ?_⟩
    rcases h2 k rest' hrest with h | h | h
    · exact Or.inl h
    · exact absurd h (Nat.not_lt_zero k)
    · exact Or.inr h
  · intro hns hnodup
    -- the dropped positions are a sublist of the in-range entries
    have hfilter : (removedPositions block.SkippedTxs 0 evmBlock.Transactions.length).Sublist
        (block.SkippedTxs.filter (fun k => decide (k < evmBlock.Transactions.length))) := by
      have h := hsub.1.filter (fun k => decide (k < evmBlock.Transactions.length))
      rwa [List.filter_eq_self.mpr (fun k hk => by
        have := hbound k hk
        simpa using this.2)] at h
    have hlt : (removedPositions block.SkippedTxs 0 evmBlock.Transactions.length).length
        < (block.SkippedTxs.filter
            (fun k => decide (k < evmBlock.Transactions.length))).length := by
      rcases Nat.lt_or_ge
        (removedPositions block.SkippedTxs 0 evmBlock.Transactions.length).length
        (block.SkippedTxs.filter
          (fun k => decide (k < evmBlock.Transactions.length))).length with h | h
      · exact h
      · have heq := hfilter.eq_of_length (Nat.le_antisymm hfilter.length_le h)
        exact absurd (heq ▸ hsub.2) hns
    have hex : ∃ k ∈ block.SkippedTxs.filter
        (fun k => decide (k < evmBlock.Transactions.length)),
        k ∉ removedPositions block.SkippedTxs 0 evmBlock.Transactions.length := by
      by_contra hall
      push_neg at hall
      have := (List.subperm_of_subset hnodup hall).length_le
      omega
    obtain ⟨k, hkS, hkR⟩ := hex
    rw [List.mem_filter] at hkS
    have hk : k < evmBlock.Transactions.length := by simpa using hkS.2
    exact ⟨k, hk, hkS.1, hkR, hstays k hk hkR⟩

/-- C19, amended, at the skip list `[3, 9, 1]` and five transactions: position 3
is dropped, the entry 9 is out of range, and position 1 stays. -/
theorem filterSkippedTxs_arbitrary_witness :
    ∃ k, ∃ hk : k < 5, k ∈ [3, 9, 1]
      ∧ k ∉ removedPositions [3, 9, 1] 0 5
      ∧ [sampleTx 0, sampleTx 1, sampleTx 2, sampleTx 3, sampleTx 4].get ⟨k, hk⟩
          ∈ (filterSkippedTxs
              { Index := 1, Atropos := Hash.zero, Events := [], SkippedTxs := [3, 9, 1],
                GasUsed := 0, TxHash := Hash.zero, Root := Hash.zero }
              { EvmHeader := ToEvmHeader sampleBlock,
                Transactions := [sampleTx 0, sampleTx 1, sampleTx 2, sampleTx 3,
                  sampleTx 4] }).Transactions :=
  (filterSkippedTxs_arbitrary
    { Index := 1, Atropos := Hash.zero, Events := [], SkippedTxs := [3, 9, 1],
      GasUsed := 0, TxHash := Hash.zero, Root := Hash.zero }
    { EvmHeader := ToEvmHeader sampleBlock,
      Transactions := [sampleTx 0, sampleTx 1, sampleTx 2, sampleTx 3,
        sampleTx 4] }).2.2.2.2.2.2.2.2 (by decide) (by decide)

theorem memorizeBlockPositions_absent (blockIndex : BlockIdx) (h : Hash) :
    ∀ (txs : List Transaction) (i : Nat) (m : TxPositions),
      (∀ t ∈ txs, t.Hash ≠ h) → memorizeBlockPositions blockIndex txs i m h = m h := by
  intro txs
  induction txs with
  | nil => intro i m _; rfl
  | cons tx rest ih =>
    intro i m hno
    have hne : h ≠ tx.Hash := fun heq => hno tx (List.mem_cons_self _ _) heq.symm
    simp only [memorizeBlockPositions]
    rw [ih _ _ (fun t ht => hno t (List.mem_cons_of_mem _ ht)), Function.update_noteq hne]

theorem memorizeBlockPositions_present (blockIndex : BlockIdx) (h : Hash) :
    ∀ (txs : List Transaction) (i : Nat) (m : TxPositions),
      (∃ t ∈ txs, t.Hash = h) →
      ∃ j, j < txs.length ∧ (txs.get? j).map (fun t => t.Hash) = some h
        ∧ memorizeBlockPositions blockIndex txs i m h
          = some { Block := blockIndex, Event := ((m h).getD {}).Event,
                   EventOffset := ((m h).getD {}).EventOffset,
                   BlockOffset := toUint32 (i + j) } := by
  intro txs
  induction txs with
  | nil => intro i m hex; simp at hex
  | cons tx rest ih =>
    intro i m hex
    by_cases hrest : ∃ t ∈ rest, t.Hash = h
    · obtain ⟨j, hj, hget, hpos⟩ := ih (i + 1)
        (Function.update m tx.Hash
          (some { Block := blockIndex, Event := ((m tx.Hash).getD {}).Event,
                  EventOffset := ((m tx.Hash).getD {}).EventOffset,
                  BlockOffset := toUint32 i })) hrest
      refine ⟨j + 1, by simp; omega, by simpa using hget, ?_⟩
      simp only [memorizeBlockPositions]
      rw [hpos]
      by_cases hh : tx.Hash = h
      · subst hh
        simp [Nat.add_assoc, Nat.add_comm 1 j]
      · rw [Function.update_noteq (Ne.symm hh)]
        simp [Nat.add_assoc, Nat.add_comm 1 j]
    · have hh : tx.Hash = h := by
        obtain ⟨t, ht, hth⟩ := hex
        rcases List.mem_cons.mp ht with rfl | ht'
        · exact hth
        · exact absurd ⟨t, ht', hth⟩ hrest
      refine ⟨0, by simp, by simp [hh], ?_⟩
      simp only [memorizeBlockPositions]
      rw [memorizeBlockPositions_absent blockIndex h rest _ _
        (fun t ht hth => hrest ⟨t, ht, hth⟩)]
      subst hh
      simp

theorem assembleLoop_some (st : Store) :
    ∀ (ids : List Hash) (txs txs' : List Transaction) (evs evs' : List Event),
      assembleLoop st ids txs evs = some (txs', evs') →
      ∃ added : List Event, evs' = evs ++ added
        ∧ txs' = txs ++ (added.map (fun e => e.Transactions)).flatten := by
  intro ids
  induction ids with
  | nil =>
    intro txs txs' evs evs' h
    simp only [assembleLoop, Option.some.injEq, Prod.mk.injEq] at h
    exact ⟨[], by simp [h.1, h.2]⟩
  | cons id rest ih =>
    intro txs txs' evs evs' h
    simp only [assembleLoop] at h
    cases he : st.GetEvent id with
    | none => rw [he] at h; cases h
    | some e =>
      rw [he] at h
      obtain ⟨added, h1, h2⟩ := ih _ _ _ _ h
      exact ⟨e :: added, by simp [h1], by simp [h2]⟩

/-- C17. Final transaction position: when `applyNewState` runs through, every
transaction of the filtered list it returns has in the returned map a
position whose `Block` is the index of the block, whose `BlockOffset` is the
`uint32` of an index of the filtered list at which a transaction with that
hash stands (the index itself for lists of at most 2^32 transactions), and
whose `Event` and `EventOffset` are those of the first event, in the order of
the block events, that carries the hash, at the smallest offset there. The
map is a function of the transaction hash, so a hash has one position. -/
theorem applyNewState_final_positions (env : Env) (s : Service) (block : Block)
    (sealEpoch : Bool) (cheaters : List StakerID) (evmBlock : EvmBlock)
    (blockEvents : List Event) (prev block1 : Block) (evmBlock1 : EvmBlock) (totalFee : Nat)
    (receipts : List Receipt) (s1 : Service) (root : Hash)
    (h1 : assembleEvmBlock s block = some (evmBlock, blockEvents))
    (h2 : s.store.GetBlock (prevBlockIdx block.Index) = some prev)
    (h3 : executeEvmTransactions env s block evmBlock prev.Root
      = some (block1, evmBlock1, totalFee, receipts, s1))
    (h4 : env.StateCommit prev.Root block1 sealEpoch cheaters = (root, none)) :
    ∃ r, applyNewState env s block sealEpoch cheaters = some r
      ∧ r.1.Index = block.Index
      ∧ r.2.1.Transactions
          = (filterSkippedTxs
              { block with SkippedTxs := (env.Process evmBlock prev.Root).skipped }
              evmBlock).Transactions
      ∧ ∀ tx ∈ r.2.1.Transactions,
          ∃ (position : TxPosition) (e : Event) (j : Nat),
            r.2.2.2.1 tx.Hash = some position
              ∧ position.Block = block.Index
              ∧ j < r.2.1.Transactions.length
              ∧ (r.2.1.Transactions.get? j).map (fun t => t.Hash) = some tx.Hash
              ∧ position.BlockOffset = toUint32 j
              ∧ (r.2.1.Transactions.length ≤ 2 ^ 32 → position.BlockOffset = j)
              ∧ blockEvents.find? (carries tx.Hash) = some e
              ∧ position.Event = e.Hash
              ∧ position.EventOffset
                  = toUint32 (e.Transactions.findIdx (fun t => decide (t.Hash = tx.Hash))) := by
  have happly := applyNewState_eq env s block sealEpoch cheaters evmBlock blockEvents prev block1
    evmBlock1 totalFee receipts s1 root h1 h2 h3 h4
  -- what the executor step returned
  have hexec : block1.Index = block.Index
      ∧ evmBlock1.Transactions
        = (filterSkippedTxs
            { block with SkippedTxs := (env.Process evmBlock prev.Root).skipped }
            evmBlock).Transactions := by
    simp only [executeEvmTransactions] at h3
    cases herr : (env.Process evmBlock prev.Root).err with
    | some err => rw [herr] at h3; cases h3
    | none =>
      rw [herr] at h3
      simp only at h3
      cases hp : pushLogs env (env.Process evmBlock prev.Root).receipts s with
      | none => rw [hp] at h3; cases h3
      | some s2 =>
        rw [hp] at h3
        simp only [Option.some.injEq, Prod.mk.injEq] at h3
        obtain ⟨hb, heb, _, _, _⟩ := h3
        subst hb; subst heb
        exact ⟨rfl, rfl⟩
  -- the assembled transactions are those of the block events
  have hflat : evmBlock.Transactions = (blockEvents.map (fun e => e.Transactions)).flatten := by
    simp only [assembleEvmBlock] at h1
    split_ifs at h1
    cases hl : assembleLoop s.store block.Events [] [] with
    | none => rw [hl] at h1; cases h1
    | some res =>
      obtain ⟨txs', evs'⟩ := res
      rw [hl] at h1
      simp only [Option.some.injEq, Prod.mk.injEq] at h1
      obtain ⟨added, ha1, ha2⟩ := assembleLoop_some s.store _ _ _ _ _ hl
      rw [← h1.1, ← h1.2]
      simp [ha1, ha2]
  refine ⟨_, happly, hexec.1, hexec.2, ?_⟩
  intro tx htx
  simp only at htx
  have htx0 : tx ∈ evmBlock.Transactions := by
    rw [hexec.2] at htx
    have hsub : (filterSkippedTxs
        { block with SkippedTxs := (env.Process evmBlock prev.Root).skipped }
        evmBlock).Transactions.Sublist evmBlock.Transactions := by
      simp only [filterSkippedTxs, filterLoop_eq_filterAhead, List.nil_append]
      exact filterAhead_sublist _ _ _
    exact hsub.subset htx
  have hcar : ∃ e ∈ blockEvents, carries tx.Hash e = true := by
    rw [hflat, List.mem_flatten] at htx0
    obtain ⟨l, hl, htl⟩ := htx0
    obtain ⟨e, he, rfl⟩ := List.mem_map.mp hl
    exact ⟨e, he, (carries_iff tx.Hash e).mpr ⟨tx, htl, rfl⟩⟩
  obtain ⟨e, hfind, hprov⟩ := memorizeTxPositions_first tx.Hash blockEvents (fun _ => none) rfl hcar
  obtain ⟨j, hj, hget, hpos⟩ := memorizeBlockPositions_present block1.Index tx.Hash
    evmBlock1.Transactions 0 (memorizeTxPositions blockEvents (fun _ => none)) ⟨tx, htx, rfl⟩
  rw [hprov] at hpos
  simp only [Option.getD_some, Nat.zero_add] at hpos
  refine ⟨_, e, j, hpos, hexec.1, hj, hget, rfl, fun hlen => ?_, hfind, rfl, rfl⟩
  simp only at hlen
  exact Nat.mod_eq_of_lt (by omega)

/-- C17, at the sample service and block: of the four assembled transactions the
executor skips position 1, and the transaction 8, carried by both events, ends
at block offset 1 with the provenance of the first event, offset 1. -/
theorem applyNewState_final_positions_witness :
    ∃ r, applyNewState sampleEnv sampleService sampleBlock false [] = some r
      ∧ r.2.1.Transactions = [sampleTx 7, sampleTx 8, sampleTx 9]
      ∧ r.2.2.2.1 ⟨[8]⟩
        = some { Block := 1, Event := ⟨[1]⟩, EventOffset := 1, BlockOffset := 1 } :=
  let ⟨r, h, _, htxs, _⟩ := applyNewState_final_positions sampleEnv sampleService sampleBlock
    false [] _ _ _ _ _ _ _ _ ⟨[100, 7, 8, 9]⟩ rfl rfl rfl rfl
  ⟨r, h, htxs.trans (by decide), by
    have hr := h.symm.trans (applyNewState_eq sampleEnv sampleService sampleBlock false []
      _ _ _ _ _ _ _ _ ⟨[100, 7, 8, 9]⟩ rfl rfl rfl rfl)
    simp only [Option.some.injEq] at hr
    rw [hr]
    decide⟩

end gossip

namespace posposet

theorem bytesCompare_self (a : List (Fin 256)) : bytesCompare a a = 0 := by
  induction a with
  | nil => rfl
  | cons x xs ih => simp [bytesCompare, ih]

theorem bytesCompare_eq_zero : ∀ (a b : List (Fin 256)), bytesCompare a b = 0 → a = b := by
  intro a
  induction a with
  | nil => intro b h; cases b with
    | nil => rfl
    | cons y ys => simp [bytesCompare] at h
  | cons x xs ih =>
    intro b h
    cases b with
    | nil => simp [bytesCompare] at h
    | cons y ys =>
      simp only [bytesCompare] at h
      rcases lt_trichotomy x y with h1 | h1 | h1
      · simp [h1] at h
      · subst h1
        simp only [lt_irrefl, if_false] at h
        rw [ih ys h]
      · simp [h1, lt_asymm h1] at h

theorem bytesCompare_swap : ∀ (a b : List (Fin 256)), bytesCompare b a = - bytesCompare a b := by
  intro a
  induction a with
  | nil => intro b; cases b <;> simp [bytesCompare]
  | cons x xs ih =>
    intro b
    cases b with
    | nil => simp [bytesCompare]
    | cons y ys =>
      simp only [bytesCompare]
      rcases lt_trichotomy x y with h | h | h
      · simp [h, lt_asymm h]
      · subst h; simp [ih]
      · simp [h, lt_asymm h]

theorem bytesCompare_trans : ∀ (a b c : List (Fin 256)),
    bytesCompare a b < 0 → bytesCompare b c < 0 → bytesCompare a c < 0 := by
  intro a
  induction a with
  | nil =>
    intro b c hab hbc
    cases b with
    | nil => simp [bytesCompare] at hab
    | cons y ys => cases c with
      | nil => simp [bytesCompare] at hbc
      | cons z zs => simp [bytesCompare]
  | cons x xs ih =>
    intro b c hab hbc
    cases b with
    | nil => simp [bytesCompare] at hab
    | cons y ys =>
      cases c with
      | nil => simp [bytesCompare] at hbc
      | cons z zs =>
        simp only [bytesCompare] at hab hbc ⊢
        rcases lt_trichotomy x y with h1 | h1 | h1
        · rcases lt_trichotomy y z with h3 | h3 | h3
          · simp [lt_trans h1 h3]
          · subst h3; simp [h1]
          · simp [h3, lt_asymm h3] at hbc
        · subst h1
          simp only [lt_irrefl, if_false] at hab
          rcases lt_trichotomy x z with h3 | h3 | h3
          · simp [h3]
          · subst h3
            simp only [lt_irrefl, if_false] at hbc ⊢
            exact ih ys zs hab hbc
          · simp [h3, lt_asymm h3] at hbc
        · simp [h1, lt_asymm h1] at hab

theorem less_irrefl (a : EventHash) : a.less a = false := by
  simp [EventHash.less, bytesCompare_self]

theorem less_asymm {a b : EventHash} (h : a.less b = true) : b.less a = false := by
  simp only [EventHash.less, decide_eq_true_eq, decide_eq_false_iff_not] at *
  rw [bytesCompare_swap]; omega

theorem less_trans {a b c : EventHash} (hab : a.less b = true) (hbc : b.less c = true) :
    a.less c = true := by
  simp only [EventHash.less, decide_eq_true_eq] at *
  exact bytesCompare_trans _ _ _ hab hbc

theorem less_trichotomy (a b : EventHash) : a.less b = true ∨ a = b ∨ b.less a = true := by
  simp only [EventHash.less, decide_eq_true_eq]
  rcases lt_trichotomy (bytesCompare a.Bytes b.Bytes) 0 with h | h | h
  · exact Or.inl h
  · right; left
    have := bytesCompare_eq_zero _ _ h
    cases a; cases b; simp_all [EventHash.Bytes]
  · right; right; rw [bytesCompare_swap]; omega

theorem sortSlice_perm (arr : EventHashSlice) : (sortSlice arr).Perm arr :=
  List.perm_insertionSort _ arr

theorem sortSlice_sorted (arr : EventHashSlice) (hnodup : arr.Nodup) :
    (sortSlice arr).Pairwise (fun a b => a.less b = true) := by
  haveI : IsTotal EventHash (fun a b => b.less a = false) := ⟨fun a b => by
    rcases less_trichotomy a b with h | h | h
    · exact Or.inl (less_asymm h)
    · subst h; exact Or.inl (less_irrefl a)
    · exact Or.inr (less_asymm h)⟩
  haveI : IsTrans EventHash (fun a b => b.less a = false) := ⟨fun a b c hab hbc => by
    rcases less_trichotomy a b with h | h | h
    · rcases less_trichotomy b c with h' | h' | h'
      · exact less_asymm (less_trans h h')
      · subst h'; exact hab
      · rw [h'] at hbc; cases hbc
    · subst h; exact hbc
    · rw [h] at hab; cases hab⟩
  have hs : (sortSlice arr).Pairwise (fun a b => b.less a = false) :=
    List.sorted_insertionSort (fun (a b : EventHash) => b.less a = false) arr
  have hn : (sortSlice arr).Pairwise (fun a b => a ≠ b) :=
    (sortSlice_perm arr).nodup_iff.mpr hnodup
  refine (hs.and hn).imp ?_
  intro a b hab
  rcases less_trichotomy a b with h | h | h
  · exact h
  · exact absurd h hab.2
  · rw [h] at hab; cases hab.1

theorem sorted_unique {l₁ l₂ : EventHashSlice} (hp : l₁.Perm l₂)
    (h₁ : l₁.Pairwise (fun a b => a.less b = true))
    (h₂ : l₂.Pairwise (fun a b => a.less b = true)) : l₁ = l₂ := by
  haveI : IsAntisymm EventHash (fun a b => a.less b = true) := ⟨fun a b hab hba => by
    rw [less_asymm hab] at hba; cases hba⟩
  exact List.eq_of_perm_of_sorted hp h₁ h₂

theorem add_one (res : EventHashes) (h : EventHash) :
    res.addAllocated [h] = if res.Contains h then (res, false) else (⟨res.keys ++ [h]⟩, true) := by
  by_cases hc : res.Contains h = true <;> simp [EventHashes.addAllocated, addLoop, hc]

theorem decodeLoop_ok : ∀ (arr : EventHashSlice) (res : EventHashes), arr.Nodup →
    (∀ h ∈ arr, h ∉ res.keys) → decodeLoop arr res = .ok ⟨res.keys ++ arr⟩ := by
  intro arr
  induction arr with
  | nil => intro res _ _; simp [decodeLoop]
  | cons h rest ih =>
    intro res hn hd
    rw [List.nodup_cons] at hn
    have hc : res.Contains h = false := by
      simpa [EventHashes.Contains] using hd h (List.mem_cons_self _ _)
    simp only [decodeLoop, add_one, hc, Bool.false_eq_true, if_false, Bool.not_true]
    rw [ih _ hn.2 (fun x hx => by
      simp only [List.mem_append, List.mem_singleton, not_or]
      exact ⟨hd x (List.mem_cons_of_mem _ hx), fun hxh => hn.1 (hxh ▸ hx)⟩)]
    simp

theorem decodeLoop_error : ∀ (arr : EventHashSlice) (res : EventHashes),
    (¬ arr.Nodup ∨ ∃ h ∈ arr, h ∈ res.keys) →
    decodeLoop arr res = .error "Double value is detected" := by
  intro arr
  induction arr with
  | nil => intro res h; simp at h
  | cons h rest ih =>
    intro res hbad
    by_cases hc : res.Contains h = true
    · simp [decodeLoop, add_one, hc]
    · have hc' : res.Contains h = false := by simpa using hc
      have hnot : h ∉ res.keys := by simpa [EventHashes.Contains] using hc'
      simp only [decodeLoop, add_one, hc', Bool.false_eq_true, if_false, Bool.not_true]
      apply ih
      rcases hbad with hdup | ⟨x, hx, hxr⟩
      · rw [List.nodup_cons, not_and_or, not_not] at hdup
        rcases hdup with hin | hrest
        · exact Or.inr ⟨h, hin, by simp⟩
        · exact Or.inl hrest
      · rcases List.mem_cons.mp hx with rfl | hx'
        · exact absurd hxr hnot
        · exact Or.inr ⟨x, hx', by simp [hxr]⟩

theorem addLoop_spec : ∀ (hs : List EventHash) (hh : EventHashes) (c : Bool),
    ∃ ext : List EventHash, (addLoop hs hh c).1.keys = hh.keys ++ ext
      ∧ (∀ x, x ∈ ext ↔ x ∈ hs ∧ x ∉ hh.keys) ∧ ext.Nodup
      ∧ (addLoop hs hh c).2 = (c || !ext.isEmpty) := by
  intro hs
  induction hs with
  | nil => intro hh c; exact ⟨[], by simp [addLoop]⟩
  | cons h rest ih =>
    intro hh c
    by_cases hc : hh.Contains h = true
    · have hin : h ∈ hh.keys := by simpa [EventHashes.Contains] using hc
      obtain ⟨ext, h1, h2, h3, h4⟩ := ih hh c
      refine ⟨ext, by simp [addLoop, hc, h1], ?_, h3, by simp [addLoop, hc, h4]⟩
      intro x
      rw [h2, List.mem_cons]
      constructor
      · exact fun ⟨a, b⟩ => ⟨Or.inr a, b⟩
      · rintro ⟨a | a, b⟩
        · exact absurd (a ▸ hin) b
        · exact ⟨a, b⟩
    · have hc' : hh.Contains h = false := by simpa using hc
      have hnot : h ∉ hh.keys := by simpa [EventHashes.Contains] using hc'
      obtain ⟨ext, h1, h2, h3, h4⟩ := ih ⟨hh.keys ++ [h]⟩ true
      refine ⟨h :: ext, by simp [addLoop, hc', h1], ?_, ?_, by simp [addLoop, hc', h4]⟩
      · intro x
        rw [List.mem_cons, h2, List.mem_cons]
        simp only [List.mem_append, List.mem_singleton, not_or]
        constructor
        · rintro (rfl | ⟨a, b, _⟩)
          · exact ⟨Or.inl rfl, hnot⟩
          · exact ⟨Or.inr a, b⟩
        · rintro ⟨rfl | a, b⟩
          · exact Or.inl rfl
          · by_cases hx : x = h
            · exact Or.inl hx
            · exact Or.inr ⟨a, b, hx⟩
      · rw [List.nodup_cons]
        refine ⟨fun hmem => ?_, h3⟩
        have := ((h2 h).mp hmem).2
        simp at this

/-- C7. Round trip of a hash set: decoding the array that `EncodeRLP` produces
for a set succeeds, and the decoded set has exactly the members of the original
set, each once; this includes the empty set. -/
theorem DecodeRLP_EncodeRLP_roundtrip (hh : EventHashes) (hnodup : hh.keys.Nodup) :
    EventHashes.DecodeRLP (.ok hh.EncodeRLP) = .ok ⟨hh.EncodeRLP⟩
      ∧ (∀ h, (EventHashes.mk hh.EncodeRLP).Contains h = hh.Contains h)
      ∧ (EventHashes.mk hh.EncodeRLP).keys.Perm hh.keys
      ∧ EventHashes.DecodeRLP (.ok (EventHashes.mk []).EncodeRLP) = .ok ⟨[]⟩ := by
  have hperm : hh.EncodeRLP.Perm hh.keys := sortSlice_perm hh.keys
  refine ⟨?_, ?_, hperm, rfl⟩
  · have h := decodeLoop_ok hh.EncodeRLP ⟨[]⟩ (hperm.nodup_iff.mpr hnodup) (by simp)
    simpa [EventHashes.DecodeRLP] using h
  · intro h
    simp [EventHashes.Contains, hperm.mem_iff]

/-- C7, at the set `{3, 1, 2}` held in that iteration order. -/
theorem DecodeRLP_EncodeRLP_roundtrip_witness :
    (EventHashes.mk [EventHash.ofByte 3, EventHash.ofByte 1, EventHash.ofByte 2]).keys.Nodup
      ∧ EventHashes.DecodeRLP
          (.ok (EventHashes.mk [EventHash.ofByte 3, EventHash.ofByte 1, EventHash.ofByte 2]).EncodeRLP)
        = .ok ⟨[EventHash.ofByte 1, EventHash.ofByte 2, EventHash.ofByte 3]⟩ :=
  ⟨by decide,
   (DecodeRLP_EncodeRLP_roundtrip
      (EventHashes.mk [EventHash.ofByte 3, EventHash.ofByte 1, EventHash.ofByte 2])
      (by decide)).1⟩

/-- C8. `DecodeRLP` rejects duplicates: when the decoded array holds the same
hash at two different positions, adjacent or not, the result is the error
"Double value is detected". -/
theorem DecodeRLP_rejects_duplicates (arr : EventHashSlice) (i j : Nat)
    (hi : i < arr.length) (hj : j < arr.length) (hij : i ≠ j)
    (heq : arr.get ⟨i, hi⟩ = arr.get ⟨j, hj⟩) :
    EventHashes.DecodeRLP (.ok arr) = .error "Double value is detected" := by
  have hdup : ¬ arr.Nodup := by
    intro hn
    have := (List.Nodup.get_inj_iff hn).mp heq
    exact hij (by simpa using congrArg Fin.val this)
  simpa [EventHashes.DecodeRLP] using decodeLoop_error arr ⟨[]⟩ (Or.inl hdup)

/-- C8, at the array `[3, 1, 3]`, whose positions 0 and 2 hold the same hash. -/
theorem DecodeRLP_rejects_duplicates_witness :
    EventHashes.DecodeRLP (.ok [EventHash.ofByte 3, EventHash.ofByte 1, EventHash.ofByte 3])
      = .error "Double value is detected" :=
  DecodeRLP_rejects_duplicates [EventHash.ofByte 3, EventHash.ofByte 1, EventHash.ofByte 3] 0 2
    (by decide) (by decide) (by decide) (by decide)

/-- C9. Canonical serialization: the array that `EncodeRLP` encodes holds
exactly the members of the set, each once, strictly increasing in the order of
`EventHashSlice.Less` at any two positions, and it is the same array whatever
the order in which the map is iterated. -/
theorem EncodeRLP_canonical (hh : EventHashes) (hnodup : hh.keys.Nodup) :
    (∀ h, h ∈ hh.EncodeRLP ↔ hh.Contains h = true)
      ∧ hh.EncodeRLP.Nodup
      ∧ hh.EncodeRLP.length = hh.keys.length
      ∧ (∀ (i j : Nat) (hi : i < hh.EncodeRLP.length) (hj : j < hh.EncodeRLP.length),
          i < j → EventHashSlice.Less hh.EncodeRLP i j hi hj = true)
      ∧ (∀ hh' : EventHashes, hh'.keys.Perm hh.keys → hh'.EncodeRLP = hh.EncodeRLP) := by
  have hperm : hh.EncodeRLP.Perm hh.keys := sortSlice_perm hh.keys
  have hsorted : hh.EncodeRLP.Pairwise (fun a b => a.less b = true) :=
    sortSlice_sorted hh.keys hnodup
  refine ⟨fun h => by simp [EventHashes.Contains, hperm.mem_iff],
    hperm.nodup_iff.mpr hnodup, hperm.length_eq, ?_, ?_⟩
  · intro i j hi hj hlt
    have := List.pairwise_iff_get.mp hsorted ⟨i, hi⟩ ⟨j, hj⟩ (by simpa using hlt)
    simpa [EventHashSlice.Less, EventHash.less] using this
  · intro hh' hp
    have hperm' : hh'.EncodeRLP.Perm hh'.keys := sortSlice_perm hh'.keys
    exact sorted_unique (hperm'.trans (hp.trans hperm.symm))
      (sortSlice_sorted hh'.keys (hp.nodup_iff.mpr hnodup)) hsorted

/-- C9, at the set `{3, 1, 2}` held in that iteration order. -/
theorem EncodeRLP_canonical_witness :
    (EventHashes.mk [EventHash.ofByte 3, EventHash.ofByte 1, EventHash.ofByte 2]).keys.Nodup
      ∧ (EventHashes.mk [EventHash.ofByte 2, EventHash.ofByte 3, EventHash.ofByte 1]).EncodeRLP
        = (EventHashes.mk [EventHash.ofByte 3, EventHash.ofByte 1, EventHash.ofByte 2]).EncodeRLP :=
  ⟨by decide,
   (EncodeRLP_canonical
      (EventHashes.mk [EventHash.ofByte 3, EventHash.ofByte 1, EventHash.ofByte 2])
      (by decide)).2.2.2.2 ⟨[EventHash.ofByte 2, EventHash.ofByte 3, EventHash.ofByte 1]⟩
      (by decide)⟩

theorem addAllocated_reports_change (hh : EventHashes) (hs : List EventHash) :
    (∀ h, (hh.addAllocated hs).1.Contains h = (hh.Contains h || decide (h ∈ hs)))
      ∧ ((hh.addAllocated hs).2 = true ↔ ∃ h ∈ hs, hh.Contains h = false)
      ∧ ((hh.addAllocated hs).2 = true ↔ ∃ h, (hh.addAllocated hs).1.Contains h ≠ hh.Contains h)
      ∧ ((hh.addAllocated hs).2 = false ↔ (hh.addAllocated hs).1 = hh)
      ∧ (hh.addAllocated hs).1.addAllocated hs = ((hh.addAllocated hs).1, false)
      ∧ (hh.keys.Nodup → (hh.addAllocated hs).1.keys.Nodup) := by
  obtain ⟨ext, h1, h2, h3, h4⟩ := addLoop_spec hs hh false
  have hmem : ∀ h, h ∈ (hh.addAllocated hs).1.keys ↔ h ∈ hh.keys ∨ h ∈ hs := by
    intro h
    show h ∈ (addLoop hs hh false).1.keys ↔ _
    rw [h1, List.mem_append, h2]
    tauto
  have hch : (hh.addAllocated hs).2 = true ↔ ext ≠ [] := by
    show (addLoop hs hh false).2 = true ↔ _
    rw [h4]; cases ext <;> simp
  have hex : ext ≠ [] ↔ ∃ h ∈ hs, h ∉ hh.keys := by
    constructor
    · intro hne
      obtain ⟨x, hx⟩ := List.exists_mem_of_ne_nil ext hne
      exact ⟨x, (h2 x).mp hx⟩
    · rintro ⟨x, hx, hxn⟩ hnil
      have := (h2 x).mpr ⟨hx, hxn⟩
      rw [hnil] at this; cases this
  refine ⟨?_, ?_, ?_, ?_, ?_, ?_⟩
  · intro h
    have := hmem h
    by_cases ha : h ∈ hh.keys <;> by_cases hb : h ∈ hs <;>
      simp_all [EventHashes.Contains]
  · rw [hch, hex]; simp [EventHashes.Contains]
  · rw [hch, hex]
    constructor
    · rintro ⟨x, hx, hxn⟩
      refine ⟨x, ?_⟩
      have := (hmem x).mpr (Or.inr hx)
      simp [EventHashes.Contains, this, hxn]
    · rintro ⟨x, hx⟩
      by_cases ha : x ∈ hh.keys
      · have := (hmem x).mpr (Or.inl ha)
        simp [EventHashes.Contains, this, ha] at hx
      · by_cases hb : x ∈ hs
        · exact ⟨x, hb, ha⟩
        · have : x ∉ (hh.addAllocated hs).1.keys := fun hin => by
            rcases (hmem x).mp hin with h | h
            · exact ha h
            · exact hb h
          simp [EventHashes.Contains, this, ha] at hx
  · have hkeys : (hh.addAllocated hs).1.keys = hh.keys ++ ext := h1
    constructor
    · intro hf
      have hnil : ext = [] := by
        by_contra hne
        rw [hch.mpr hne] at hf; cases hf
      have : (hh.addAllocated hs).1.keys = hh.keys := by rw [hkeys, hnil, List.append_nil]
      cases hh; cases hr : (EventHashes.addAllocated _ hs).1; simp_all
    · intro heq
      have hnil : ext = [] := by
        have := congrArg EventHashes.keys heq
        rw [hkeys] at this
        simpa using this
      cases hb : (hh.addAllocated hs).2
      · rfl
      · exact absurd hnil (hch.mp hb)
  · obtain ⟨ext', g1, g2, g3, g4⟩ := addLoop_spec hs (hh.addAllocated hs).1 false
    have hnil : ext' = [] := by
      cases hext : ext' with
      | nil => rfl
      | cons x t =>
        have hx := (g2 x).mp (by rw [hext]; exact List.mem_cons_self _ _)
        exact absurd ((hmem x).mpr (Or.inr hx.1)) hx.2
    have hk : ((hh.addAllocated hs).1.addAllocated hs).1.keys = (hh.addAllocated hs).1.keys := by
      show (addLoop hs (hh.addAllocated hs).1 false).1.keys = _
      rw [g1, hnil, List.append_nil]
    have hc : ((hh.addAllocated hs).1.addAllocated hs).2 = false := by
      show (addLoop hs (hh.addAllocated hs).1 false).2 = _
      rw [g4, hnil]; rfl
    apply Prod.ext
    · cases hr : ((hh.addAllocated hs).1.addAllocated hs).1
      cases hr' : (hh.addAllocated hs).1
      simp_all
    · exact hc
  · intro hn
    show (addLoop hs hh false).1.keys.Nodup
    rw [h1, List.nodup_append]
    exact ⟨hn, h3, fun x hx hx' => ((h2 x).mp hx').2 hx⟩

theorem addLoopNilable_allocated :
    ∀ (hs : List EventHash) (m : EventHashes) (c : Bool),
      addLoopNilable hs (some m) c = some (some (addLoop hs m c).1, (addLoop hs m c).2) := by
  intro hs
  induction hs with
  | nil => intro m c; rfl
  | cons h rest ih =>
    intro m c
    by_cases hc : m.Contains h = true
    · simp [addLoopNilable, addLoop, hc, ih]
    · have hc' : m.Contains h = false := by simpa using hc
      simp [addLoopNilable, addLoop, hc', ih]

/-- C10, as stated, fails: on the nil map `Add` with an argument panics at the
assignment, so there is no set afterwards and no result. -/
theorem Add_nil_counterexample :
    EventHashes.Add none [EventHash.ofByte 1] = none
      ∧ ¬ ∃ r, EventHashes.Add none [EventHash.ofByte 1] = some r := by
  refine ⟨rfl, ?_⟩
  rintro ⟨r, hr⟩
  have hnone : EventHashes.Add none [EventHash.ofByte 1] = none := rfl
  rw [hnone] at hr
  cases hr

/-- C10, amended. `Add` reports change on a set that is not nil: the call
returns; afterwards the set is the previous set united with the arguments;
the result is true exactly when some argument was not in the set before,
which is exactly when the set changed; a second `Add` with the same arguments
returns false and leaves the set as it is; a set that held each key once
still does. On the nil set `Add` without arguments returns false and `Add`
with an argument panics. -/
theorem Add_reports_change (hh : EventHashes) (hs : List EventHash) :
    ∃ (after : EventHashes) (changed : Bool),
      EventHashes.Add (some hh) hs = some (some after, changed)
        ∧ (∀ h, after.Contains h = (hh.Contains h || decide (h ∈ hs)))
        ∧ (changed = true ↔ ∃ h ∈ hs, hh.Contains h = false)
        ∧ (changed = true ↔ ∃ h, after.Contains h ≠ hh.Contains h)
        ∧ (changed = false ↔ after = hh)
        ∧ EventHashes.Add (some after) hs = some (some after, false)
        ∧ (hh.keys.Nodup → after.keys.Nodup)
        ∧ EventHashes.Add none [] = some (none, false)
        ∧ (hs ≠ [] → EventHashes.Add none hs = none) := by
  obtain ⟨h1, h2, h3, h4, h5, h6⟩ := addAllocated_reports_change hh hs
  refine ⟨(hh.addAllocated hs).1, (hh.addAllocated hs).2,
    addLoopNilable_allocated hs hh false, h1, h2, h3, h4, ?_, h6, rfl, ?_⟩
  · have := addLoopNilable_allocated hs (hh.addAllocated hs).1 false
    show addLoopNilable hs (some (hh.addAllocated hs).1) false = _
    rw [this]
    have h5' : addLoop hs (hh.addAllocated hs).1 false = ((hh.addAllocated hs).1, false) := h5
    rw [h5']
  · intro hne
    cases hs with
    | nil => exact absurd rfl hne
    | cons h rest => rfl

/-- C10, amended, at the set `{1}` and the arguments `[1, 2, 2]`: the first `Add`
reports a change and yields `{1, 2}`; the second does not and leaves the set
as it is. -/
theorem Add_reports_change_witness :
    EventHashes.Add (some (EventHashes.mk [EventHash.ofByte 1]))
        [EventHash.ofByte 1, EventHash.ofByte 2, EventHash.ofByte 2]
      = some (some (EventHashes.mk [EventHash.ofByte 1, EventHash.ofByte 2]), true)
    ∧ EventHashes.Add (some (EventHashes.mk [EventHash.ofByte 1, EventHash.ofByte 2]))
        [EventHash.ofByte 1, EventHash.ofByte 2, EventHash.ofByte 2]
      = some (some (EventHashes.mk [EventHash.ofByte 1, EventHash.ofByte 2]), false) :=
  let ⟨after, changed, h, _, _, _, _, hagain, _⟩ :=
    Add_reports_change (EventHashes.mk [EventHash.ofByte 1])
      [EventHash.ofByte 1, EventHash.ofByte 2, EventHash.ofByte 2]
  have hval : (some (some after, changed) : Option (Option EventHashes × Bool))
      = some (some (EventHashes.mk [EventHash.ofByte 1, EventHash.ofByte 2]), true) :=
    h.symm.trans (by decide)
  have hafter : after = EventHashes.mk [EventHash.ofByte 1, EventHash.ofByte 2] := by
    simp only [Option.some.injEq, Prod.mk.injEq] at hval
    exact hval.1
  ⟨h.trans hval, hafter ▸ hagain⟩

/-- C20. `DecodeRLP` does not require sorted input: for a duplicate-free array in
any order it succeeds and yields the set of the elements of the array; and
the array `[2, 1]`, which is not in ascending order, is decoded, while
encoding the decoded set gives `[1, 2]`, another array. -/
theorem DecodeRLP_accepts_unsorted (arr : EventHashSlice) (hnodup : arr.Nodup) :
    (∃ res, EventHashes.DecodeRLP (.ok arr) = .ok res
        ∧ (∀ h, res.Contains h = decide (h ∈ arr))
        ∧ res.keys.Nodup
        ∧ res.keys.length = arr.length)
      ∧ (∃ (unsorted : EventHashSlice) (res : EventHashes),
          ¬ unsorted.Pairwise (fun a b => a.less b = true)
            ∧ EventHashes.DecodeRLP (.ok unsorted) = .ok res
            ∧ res.EncodeRLP ≠ unsorted) := by
  refine ⟨⟨⟨arr⟩, ?_, fun h => rfl, hnodup, rfl⟩,
    ⟨[EventHash.ofByte 2, EventHash.ofByte 1],
      ⟨[EventHash.ofByte 2, EventHash.ofByte 1]⟩, by decide, rfl, by decide⟩⟩
  have h := decodeLoop_ok arr ⟨[]⟩ hnodup (by simp)
  simpa [EventHashes.DecodeRLP] using h

/-- C20, at the array `[3, 1, 2]`. -/
theorem DecodeRLP_accepts_unsorted_witness :
    ∃ res, EventHashes.DecodeRLP
        (.ok [EventHash.ofByte 3, EventHash.ofByte 1, EventHash.ofByte 2]) = .ok res
      ∧ (∀ h, res.Contains h
          = decide (h ∈ [EventHash.ofByte 3, EventHash.ofByte 1, EventHash.ofByte 2]))
      ∧ res.keys.Nodup
      ∧ res.keys.length = [EventHash.ofByte 3, EventHash.ofByte 1, EventHash.ofByte 2].length :=
  (DecodeRLP_accepts_unsorted [EventHash.ofByte 3, EventHash.ofByte 1, EventHash.ofByte 2]
    (by decide)).1

end posposet
